import Mathlib

/-
  Verification of the graph state engine of the fugue-chat-tree repository.

  The data model is translated from the type declarations of the repository
  (ChatNodeData, ResearchNodeData, NoteNodeData, Canvas, CanvasListState) and
  the operations are translated from the Flow component (checkOverlap,
  getNewNodePosition, onCollapse, onBranch, onConnect, the canvas management
  handlers and the load-time migration effect) and from the ancestor walk of
  the ChatNode component.  JavaScript numbers are modelled as rationals,
  optional fields as Option, the mutable visited Set of the reachability DFS
  as an explicitly threaded list, and the Sets of the collapse BFS as Finsets.
  The callback fields (onBranch, onCollapse) carry no data and are re-bound on
  load; they are omitted from the model, as the specification requires them to
  be absent from serialized payloads.
-/

namespace ChatTree

/-! ## Data model (from the repository's type declarations) -/

structure Viewport where
  x : Rat
  y : Rat
  zoom : Rat
deriving DecidableEq

structure Pos where
  x : Rat
  y : Rat
deriving DecidableEq

structure Size where
  width : Rat
  height : Rat
deriving DecidableEq

inductive ReasoningMode
  | off
  | auto
  | light
  | medium
  | heavy
deriving DecidableEq

structure ChatNodeData where
  id : String
  inputText : Option String := none
  aiResponse : Option String := none
  isSearchEnabled : Option Bool := none
  reasoningMode : Option ReasoningMode := none
  quote : Option String := none
  isRoot : Option Bool := none
  highlights : Option (List String) := none
  collapsed : Option Bool := none
  collapsedCount : Option Nat := none
deriving DecidableEq

inductive ResearchStepStatus
  | pending
  | running
  | done
deriving DecidableEq

structure ResearchStep where
  id : String
  label : String
  status : ResearchStepStatus
deriving DecidableEq

structure SourceRec where
  id : String
  title : String
  url : String
  favicon : Option String := none
  content : Option String := none
deriving DecidableEq

inductive ResearchStatus
  | idle
  | running
  | completed
  | error
deriving DecidableEq

structure ResearchNodeData where
  id : String
  query : String
  status : ResearchStatus
  steps : List ResearchStep
  answer : String
  sources : List SourceRec
  error : Option String := none
  collapsed : Option Bool := none
  collapsedCount : Option Nat := none
deriving DecidableEq

structure NoteNodeData where
  id : String
  content : Option String := none
  collapsed : Option Bool := none
  collapsedCount : Option Nat := none
deriving DecidableEq

/-- The polymorphic node payload: the discriminated union of the three node
variants (the node's `type` tag is determined by the variant). -/
inductive NodeData
  | chat (d : ChatNodeData)
  | research (d : ResearchNodeData)
  | note (d : NoteNodeData)
deriving DecidableEq

inductive NodeKind
  | chatNode
  | researchNode
  | noteNode
deriving DecidableEq

def NodeData.kind : NodeData → NodeKind
  | .chat _ => .chatNode
  | .research _ => .researchNode
  | .note _ => .noteNode

/-- The update performed by onCollapse on the collapsed node's payload:
spreading collapsed and collapsedCount into the data object. -/
def NodeData.withCollapsed : NodeData → Bool → Nat → NodeData
  | .chat d, c, k => .chat { d with collapsed := some c, collapsedCount := some k }
  | .research d, c, k => .research { d with collapsed := some c, collapsedCount := some k }
  | .note d, c, k => .note { d with collapsed := some c, collapsedCount := some k }

/-- A React Flow node as used by the app: id, position, payload, plus the
selection flag and the hidden flag toggled by collapse. -/
structure NodeRec where
  id : String
  position : Pos
  data : NodeData
  selected : Bool := false
  hidden : Option Bool := none
deriving DecidableEq

def NodeRec.kind (n : NodeRec) : NodeKind := n.data.kind

/-- A React Flow edge: directed arc with id, source, target; hidden is toggled
by collapse, animated is set on branch-created edges (style constants of the
source are presentational and omitted). -/
structure EdgeRec where
  id : String
  source : String
  target : String
  hidden : Option Bool := none
  animated : Bool := false
deriving DecidableEq

/-- The live graph of the active canvas. -/
structure FlowState where
  nodes : List NodeRec
  edges : List EdgeRec
deriving DecidableEq

/-! ## Collision detection (NODE_SIZES, checkOverlap, getNewNodePosition) -/

/-- Approximate footprint per node variant, from the NODE_SIZES table. -/
def NODE_SIZES : NodeKind → Size
  | .chatNode => ⟨412, 400⟩
  | .researchNode => ⟨600, 500⟩
  | .noteNode => ⟨500, 400⟩

/-- Translation of checkOverlap: two rectangles overlap unless one of the four
strict separation comparisons (each including the padding once) holds. -/
def checkOverlap (pos1 : Pos) (size1 : Size) (pos2 : Pos) (size2 : Size)
    (padding : Rat := 50) : Bool :=
  !(decide (pos1.x + size1.width + padding < pos2.x) ||
    decide (pos2.x + size2.width + padding < pos1.x) ||
    decide (pos1.y + size1.height + padding < pos2.y) ||
    decide (pos2.y + size2.height + padding < pos1.y))

/-- Reference disjointness of two closed axis-aligned rectangles given as
position plus size: one is fully to the left, right, above, or below the
other. -/
def rectsDisjoint (p1 : Pos) (s1 : Size) (p2 : Pos) (s2 : Size) : Prop :=
  p1.x + s1.width < p2.x ∨ p2.x + s2.width < p1.x ∨
  p1.y + s1.height < p2.y ∨ p2.y + s2.height < p1.y

/-- A rectangle inflated by q on each of its four sides. -/
def inflate (p : Pos) (s : Size) (q : Rat) : Pos × Size :=
  (⟨p.x - q, p.y - q⟩, ⟨s.width + 2 * q, s.height + 2 * q⟩)

/-- The reference reading of the claim for the overlap test, written from the
spec's words: the padding is counted on both rectangles, i.e. each of the two
rectangles is inflated by the padding and the inflated rectangles are
disjoint. -/
def specNoOverlapBothPadded (p1 : Pos) (s1 : Size) (p2 : Pos) (s2 : Size)
    (pad : Rat) : Prop :=
  rectsDisjoint (inflate p1 s1 pad).1 (inflate p1 s1 pad).2
    (inflate p2 s2 pad).1 (inflate p2 s2 pad).2

/-- The corrected reading: the padding is counted once between the two
rectangles, i.e. exactly one of the rectangles is inflated by the padding and
the result is disjoint from the other, raw rectangle. -/
def specNoOverlapSinglePadded (p1 : Pos) (s1 : Size) (p2 : Pos) (s2 : Size)
    (pad : Rat) : Prop :=
  rectsDisjoint (inflate p1 s1 pad).1 (inflate p1 s1 pad).2 p2 s2

/-- C8 counterexample: with padding 50, two 100-wide rectangles whose
horizontal gap is 70 are reported as non-overlapping by checkOverlap, yet
their both-padded inflations are not disjoint, so the claimed equivalence
fails at this input. -/
theorem checkOverlap_not_both_padded :
    ¬ (checkOverlap ⟨0, 0⟩ ⟨100, 100⟩ ⟨170, 0⟩ ⟨100, 100⟩ 50 = false ↔
       specNoOverlapBothPadded ⟨0, 0⟩ ⟨100, 100⟩ ⟨170, 0⟩ ⟨100, 100⟩ 50) := by
  intro h
  have h1 : checkOverlap ⟨0, 0⟩ ⟨100, 100⟩ ⟨170, 0⟩ ⟨100, 100⟩ 50 = false := by
    simp only [checkOverlap, Bool.not_eq_false', Bool.or_eq_true, decide_eq_true_eq]
    norm_num
  have h2 := h.mp h1
  unfold specNoOverlapBothPadded rectsDisjoint inflate at h2
  rcases h2 with h2 | h2 | h2 | h2 <;> norm_num at h2

/-- C8 amended: checkOverlap returns no-overlap for two rectangles exactly
when one is fully to the left of, fully to the right of, fully above, or
fully below the other after the fixed padding has been added once between
them, i.e. it equals the reference rectangle-disjointness definition with
exactly one of the rectangles inflated by the padding. -/
theorem checkOverlap_eq_singlePadded (p1 : Pos) (s1 : Size) (p2 : Pos)
    (s2 : Size) (pad : Rat) :
    checkOverlap p1 s1 p2 s2 pad = false ↔
      specNoOverlapSinglePadded p1 s1 p2 s2 pad := by
  simp only [checkOverlap, specNoOverlapSinglePadded, rectsDisjoint, inflate,
    Bool.not_eq_false', Bool.or_eq_true, decide_eq_true_eq]
  constructor
  · rintro (((h | h) | h) | h)
    · exact Or.inl (by linarith)
    · exact Or.inr (Or.inl (by linarith))
    · exact Or.inr (Or.inr (Or.inl (by linarith)))
    · exact Or.inr (Or.inr (Or.inr (by linarith)))
  · rintro (h | h | h | h)
    · exact Or.inl (Or.inl (Or.inl (by linarith)))
    · exact Or.inl (Or.inl (Or.inr (by linarith)))
    · exact Or.inl (Or.inr (by linarith))
    · exact Or.inr (by linarith)

/-! ## Placement policy (getNewNodePosition) -/

/-- Placeholder node used only to give List.getLastD a default; every use
site guards on a non-empty node list first, mirroring the JS indexing
nodes[nodes.length - 1]. -/
def defaultNodeRec : NodeRec :=
  { id := "", position := ⟨0, 0⟩, data := .chat { id := "" } }

/-- Overlap scan of the candidate position against every existing node, with
the per-variant footprint table. -/
def hasAnyOverlap (nodes : List NodeRec) (cand : Pos) (newSize : Size) : Bool :=
  nodes.any (fun node => checkOverlap cand newSize node.position (NODE_SIZES node.kind))

/-- The fixed candidate-offset list of getNewNodePosition, in source order:
right, below, left, above, lower-right diagonal, upper-right diagonal. -/
def searchOffsets (refSize newSize : Size) (spacing : Rat) : List Pos :=
  [⟨refSize.width + spacing, 0⟩,
   ⟨0, refSize.height + spacing⟩,
   ⟨-(newSize.width + spacing), 0⟩,
   ⟨0, -(newSize.height + spacing)⟩,
   ⟨refSize.width + spacing, refSize.height + spacing⟩,
   ⟨refSize.width + spacing, -(newSize.height + spacing)⟩]

/-- Translation of getNewNodePosition.  The current zoom, the window extent
and the random jitter sample (the value of the expression
Math.random() * 200 - 100) are passed as arguments.  The dead lookup
fallbacks of the source (NODE_SIZES[type] falling back to 400 or to the chat
size) are dropped because NODE_SIZES is total over the three variants. -/
def getNewNodePosition (nodes : List NodeRec) (zoom : Rat) (winW winH : Rat)
    (rand : Rat) (nodeType : NodeKind) : Pos :=
  let newNodeSize := NODE_SIZES nodeType
  if nodes.isEmpty then
    ⟨winW / 2 - newNodeSize.width / 2, winH / 2 - newNodeSize.height / 2⟩
  else
    let referenceNode := (nodes.find? (fun n => n.selected)).getD
      (nodes.getLastD defaultNodeRec)
    let startX := referenceNode.position.x
    let startY := referenceNode.position.y
    let scaleFactor := 1 / max zoom (1 / 10)
    let spacing := 30 * scaleFactor
    let refSize := NODE_SIZES referenceNode.kind
    match (searchOffsets refSize newNodeSize spacing).find?
        (fun off => !(hasAnyOverlap nodes ⟨startX + off.x, startY + off.y⟩ newNodeSize)) with
    | some off => ⟨startX + off.x, startY + off.y⟩
    | none => ⟨startX + (refSize.width + 300 * scaleFactor), startY + rand * scaleFactor⟩

/-- First candidate position that overlaps no existing node, with an explicit
default for the exhausted case; used by the spec-side restatement of the
placement policy. -/
def firstFreeCandidateD (nodes : List NodeRec) (sz : Size) : List Pos → Pos → Pos
  | [], d => d
  | c :: rest, d =>
      if hasAnyOverlap nodes c sz then firstFreeCandidateD nodes sz rest d else c

/-- Spec-side restatement of the amended placement policy, written from its
words: on an empty canvas the node is centered relative to the window extent;
otherwise, around the reference node (the selected node, else the most
recently added node), probe in order a candidate to the right, below, to the
left, above, then the lower-right and upper-right diagonals, with the 30px
gap scaled by the inverse of the zoom clamped below at 0.1, and accept the
first candidate that overlaps no existing node; if every candidate overlaps,
fall back to an offset of the reference width plus 300 (zoom-scaled) to the
right with zoom-scaled random vertical jitter. -/
def specPlacement (nodes : List NodeRec) (zoom winW winH rand : Rat)
    (ty : NodeKind) : Pos :=
  let sz := NODE_SIZES ty
  if nodes.isEmpty then
    ⟨winW / 2 - sz.width / 2, winH / 2 - sz.height / 2⟩
  else
    let ref := (nodes.find? (fun n => n.selected)).getD (nodes.getLastD defaultNodeRec)
    let scale := 1 / max zoom (1 / 10)
    let spacing := 30 * scale
    let rs := NODE_SIZES ref.kind
    let x := ref.position.x
    let y := ref.position.y
    firstFreeCandidateD nodes sz
      [⟨x + rs.width + spacing, y⟩,
       ⟨x, y + rs.height + spacing⟩,
       ⟨x - (sz.width + spacing), y⟩,
       ⟨x, y - (sz.height + spacing)⟩,
       ⟨x + rs.width + spacing, y + rs.height + spacing⟩,
       ⟨x + rs.width + spacing, y - (sz.height + spacing)⟩]
      ⟨x + rs.width + 300 * scale, y + rand * scale⟩

/-- Bridging lemma: selecting the first offset whose shifted candidate is
overlap-free equals the first-fit recursion over the shifted candidates. -/
theorem find_offsets_eq_firstFree (nodes : List NodeRec) (sz : Size)
    (startX startY : Rat) (offs : List Pos) (fb : Pos) :
    (match offs.find?
        (fun off => !(hasAnyOverlap nodes ⟨startX + off.x, startY + off.y⟩ sz)) with
     | some off => (⟨startX + off.x, startY + off.y⟩ : Pos)
     | none => fb) =
      firstFreeCandidateD nodes sz
        (offs.map (fun off => ⟨startX + off.x, startY + off.y⟩)) fb := by
  induction offs with
  | nil => rfl
  | cons o rest ih =>
      simp only [List.find?, List.map, firstFreeCandidateD]
      cases hb : hasAnyOverlap nodes ⟨startX + o.x, startY + o.y⟩ sz with
      | true => simpa [hb] using ih
      | false => simp [hb]

/-- C7 counterexample: on a canvas holding a single unselected chat node at
the origin, with zoom one half (so the scaled gap 60 exceeds the padding and
candidates can succeed), the code places the new chat node at the first
source-order candidate, which lies to the RIGHT of the reference node at
x = 472, even though the straight-down placement is overlap-free; the claimed
candidate order (down first) would have chosen a position in the reference
node's own column (x = 0), so the claim fails at this input. -/
theorem getNewNodePosition_right_not_down :
    getNewNodePosition
        [{ id := "n1", position := ⟨0, 0⟩, data := .chat { id := "n1" } }]
        (1 / 2) 1000 1000 0 .chatNode = ⟨472, 0⟩ ∧
    hasAnyOverlap
        [{ id := "n1", position := ⟨0, 0⟩, data := .chat { id := "n1" } }]
        ⟨0, 460⟩ (NODE_SIZES .chatNode) = false ∧
    ¬ ((472 : Rat) = 0) := by
  refine ⟨?_, ?_, by norm_num⟩
  · unfold getNewNodePosition searchOffsets hasAnyOverlap checkOverlap
    norm_num [NODE_SIZES, NodeRec.kind, NodeData.kind, defaultNodeRec,
      List.find?, max_def, Pos.mk.injEq]
  · unfold hasAnyOverlap checkOverlap
    norm_num [NODE_SIZES, NodeRec.kind, NodeData.kind]

/-- C7 amended: the position chosen for a new standalone node equals the
spec-side first-fit policy with the source's actual candidate order (right,
below, left, above, lower-right diagonal, upper-right diagonal, with only the
30px gap scaled by inverse zoom), the fallback being a zoom-scaled offset of
the reference width plus 300 to the right with zoom-scaled vertical jitter,
and an empty canvas centering the node relative to the window extent. -/
theorem getNewNodePosition_eq_specPlacement (nodes : List NodeRec)
    (zoom winW winH rand : Rat) (ty : NodeKind) :
    getNewNodePosition nodes zoom winW winH rand ty =
      specPlacement nodes zoom winW winH rand ty := by
  unfold getNewNodePosition specPlacement
  cases h : nodes.isEmpty
  · simp only [h, Bool.false_eq_true, if_false]
    rw [find_offsets_eq_firstFree]
    have hl : (searchOffsets
          (NODE_SIZES ((nodes.find? (fun n => n.selected)).getD
            (nodes.getLastD defaultNodeRec)).kind)
          (NODE_SIZES ty)
          (30 * (1 / max zoom (1 / 10)))).map
            (fun off =>
              (⟨((nodes.find? (fun n => n.selected)).getD
                  (nodes.getLastD defaultNodeRec)).position.x + off.x,
                ((nodes.find? (fun n => n.selected)).getD
                  (nodes.getLastD defaultNodeRec)).position.y + off.y⟩ : Pos)) =
        [⟨((nodes.find? (fun n => n.selected)).getD
            (nodes.getLastD defaultNodeRec)).position.x +
              (NODE_SIZES ((nodes.find? (fun n => n.selected)).getD
                (nodes.getLastD defaultNodeRec)).kind).width +
              30 * (1 / max zoom (1 / 10)),
          ((nodes.find? (fun n => n.selected)).getD
            (nodes.getLastD defaultNodeRec)).position.y⟩,
         ⟨((nodes.find? (fun n => n.selected)).getD
            (nodes.getLastD defaultNodeRec)).position.x,
          ((nodes.find? (fun n => n.selected)).getD
            (nodes.getLastD defaultNodeRec)).position.y +
              (NODE_SIZES ((nodes.find? (fun n => n.selected)).getD
                (nodes.getLastD defaultNodeRec)).kind).height +
              30 * (1 / max zoom (1 / 10))⟩,
         ⟨((nodes.find? (fun n => n.selected)).getD
            (nodes.getLastD defaultNodeRec)).position.x -
              ((NODE_SIZES ty).width + 30 * (1 / max zoom (1 / 10))),
          ((nodes.find? (fun n => n.selected)).getD
            (nodes.getLastD defaultNodeRec)).position.y⟩,
         ⟨((nodes.find? (fun n => n.selected)).getD
            (nodes.getLastD defaultNodeRec)).position.x,
          ((nodes.find? (fun n => n.selected)).getD
            (nodes.getLastD defaultNodeRec)).position.y -
              ((NODE_SIZES ty).height + 30 * (1 / max zoom (1 / 10)))⟩,
         ⟨((nodes.find? (fun n => n.selected)).getD
            (nodes.getLastD defaultNodeRec)).position.x +
              (NODE_SIZES ((nodes.find? (fun n => n.selected)).getD
                (nodes.getLastD defaultNodeRec)).kind).width +
              30 * (1 / max zoom (1 / 10)),
          ((nodes.find? (fun n => n.selected)).getD
            (nodes.getLastD defaultNodeRec)).position.y +
              (NODE_SIZES ((nodes.find? (fun n => n.selected)).getD
                (nodes.getLastD defaultNodeRec)).kind).height +
              30 * (1 / max zoom (1 / 10))⟩,
         ⟨((nodes.find? (fun n => n.selected)).getD
            (nodes.getLastD defaultNodeRec)).position.x +
              (NODE_SIZES ((nodes.find? (fun n => n.selected)).getD
                (nodes.getLastD defaultNodeRec)).kind).width +
              30 * (1 / max zoom (1 / 10)),
          ((nodes.find? (fun n => n.selected)).getD
            (nodes.getLastD defaultNodeRec)).position.y -
              ((NODE_SIZES ty).height + 30 * (1 / max zoom (1 / 10)))⟩] := by
      simp only [searchOffsets, List.map, List.cons.injEq, Pos.mk.injEq,
        and_true]
      repeat' apply And.intro
      all_goals ring
    rw [hl]
    have hf : (⟨((nodes.find? (fun n => n.selected)).getD
          (nodes.getLastD defaultNodeRec)).position.x +
            ((NODE_SIZES ((nodes.find? (fun n => n.selected)).getD
              (nodes.getLastD defaultNodeRec)).kind).width +
              300 * (1 / max zoom (1 / 10))),
        ((nodes.find? (fun n => n.selected)).getD
          (nodes.getLastD defaultNodeRec)).position.y +
            rand * (1 / max zoom (1 / 10))⟩ : Pos) =
        ⟨((nodes.find? (fun n => n.selected)).getD
            (nodes.getLastD defaultNodeRec)).position.x +
            (NODE_SIZES ((nodes.find? (fun n => n.selected)).getD
              (nodes.getLastD defaultNodeRec)).kind).width +
            300 * (1 / max zoom (1 / 10)),
          ((nodes.find? (fun n => n.selected)).getD
            (nodes.getLastD defaultNodeRec)).position.y +
            rand * (1 / max zoom (1 / 10))⟩ := by
      simp only [Pos.mk.injEq, and_true]
      ring
    rw [hf]
  · simp only [h, if_true]

/-! ## Collapse: descendant BFS and onCollapse -/

/-- Translation of the BFS loop of onCollapse.  One fuel unit is one loop
iteration (one dequeue); the JS loop has no explicit bound, and the
sufficiency of the fuel used at the call site is proved below.  The JS Sets
visited, descendantNodeIds and descendantEdgeIds become Finsets, the array
queue a list; the per-edge forEach body is split into its three independent
effects (record the edge id, record the unvisited target, push the unvisited
target), which is sound because visited is not modified inside the loop. -/
def bfsAux (E : List EdgeRec) :
    Nat → List String → Finset String → Finset String → Finset String →
      Option (Finset String × Finset String)
  | 0, queue, _vis, dn, de => if queue.isEmpty then some (dn, de) else none
  | fuel + 1, queue, vis, dn, de =>
    match queue with
    | [] => some (dn, de)
    | curr :: rest =>
      if curr ∈ vis then bfsAux E fuel rest vis dn de
      else
        let vis' := insert curr vis
        let out := E.filter (fun e => e.source == curr)
        let de' := out.foldl (fun acc e => insert e.id acc) de
        let dn' := out.foldl
          (fun acc e => if e.target ∈ vis' then acc else insert e.target acc) dn
        let queue' := rest ++
          (out.filter (fun e => !(decide (e.target ∈ vis')))).map (fun e => e.target)
        bfsAux E fuel queue' vis' dn' de'

/-- Remaining-work measure for the BFS: pending queue entries plus edges
whose source has not been expanded yet.  Every loop iteration strictly
decreases it. -/
def bfsMeasure (E : List EdgeRec) (queue : List String) (vis : Finset String) : Nat :=
  queue.length + (E.filter (fun e => !(decide (e.source ∈ vis)))).length

theorem filter_source_split (E : List EdgeRec) (curr : String) (vis : Finset String)
    (h : curr ∉ vis) :
    (E.filter (fun e => !(decide (e.source ∈ insert curr vis)))).length +
      (E.filter (fun e => e.source == curr)).length =
    (E.filter (fun e => !(decide (e.source ∈ vis)))).length := by
  induction E with
  | nil => simp
  | cons e rest ih =>
      simp only [List.filter_cons]
      by_cases hc : e.source = curr
      · have hA : (!(decide (e.source ∈ insert curr vis))) = false := by simp [hc]
        have hB : (e.source == curr) = true := by simp [hc]
        rw [hA, hB]
        simp only [if_false, if_true, List.length_cons, Bool.false_eq_true]
        have hC : (!(decide (e.source ∈ vis))) = true := by
          simp [show e.source ∉ vis from hc ▸ h]
        rw [hC]
        simp only [if_true, List.length_cons]
        omega
      · by_cases hv : e.source ∈ vis
        · have hA : (!(decide (e.source ∈ insert curr vis))) = false := by simp [hv]
          have hB : (e.source == curr) = false := by simp [hc]
          have hC : (!(decide (e.source ∈ vis))) = false := by simp [hv]
          rw [hA, hB, hC]
          simp only [Bool.false_eq_true, if_false]
          exact ih
        · have hA : (!(decide (e.source ∈ insert curr vis))) = true := by
            simp [Finset.mem_insert, hc, hv]
          have hB : (e.source == curr) = false := by simp [hc]
          have hC : (!(decide (e.source ∈ vis))) = true := by simp [hv]
          rw [hA, hB, hC]
          simp only [Bool.false_eq_true, if_false, if_true, List.length_cons]
          omega

theorem bfsAux_isSome (E : List EdgeRec) :
    ∀ fuel queue vis dn de, bfsMeasure E queue vis ≤ fuel →
      (bfsAux E fuel queue vis dn de).isSome := by
  intro fuel
  induction fuel with
  | zero =>
      intro queue vis dn de h
      have hq : queue = [] := by
        cases queue with
        | nil => rfl
        | cons a l => simp [bfsMeasure] at h
      subst hq
      simp [bfsAux]
  | succ fuel ih =>
      intro queue vis dn de h
      cases queue with
      | nil => simp [bfsAux]
      | cons curr rest =>
          simp only [bfsAux]
          by_cases hc : curr ∈ vis
          · simp only [hc, if_true]
            apply ih
            simp only [bfsMeasure, List.length_cons] at h ⊢
            omega
          · simp only [hc, if_false]
            apply ih
            have hsplit := filter_source_split E curr vis hc
            have hpush :
                ((E.filter (fun e => e.source == curr)).filter
                  (fun e => !(decide (e.target ∈ insert curr vis)))).length ≤
                (E.filter (fun e => e.source == curr)).length :=
              List.length_filter_le _ _
            simp only [bfsMeasure, List.length_cons, List.length_append,
              List.length_map] at h ⊢
            omega

/-- Characterization of membership in the folded descendant-node-id set. -/
theorem mem_foldl_insert_target (out : List EdgeRec) (v : Finset String) :
    ∀ (dn : Finset String) (a : String),
      (a ∈ out.foldl
        (fun acc e => if e.target ∈ v then acc else insert e.target acc) dn) ↔
      a ∈ dn ∨ ∃ e ∈ out, e.target = a ∧ e.target ∉ v := by
  induction out with
  | nil => intro dn a; simp
  | cons e rest ih =>
      intro dn a
      simp only [List.foldl_cons]
      by_cases hv : e.target ∈ v
      · rw [if_pos hv, ih]
        constructor
        · rintro (h | h)
          · exact Or.inl h
          · exact Or.inr (by rcases h with ⟨e2, he2, ht, hnv⟩; exact ⟨e2, by simp [he2], ht, hnv⟩)
        · rintro (h | ⟨e2, he2, ht, hnv⟩)
          · exact Or.inl h
          · rcases List.mem_cons.mp he2 with rfl | hmem
            · exact absurd hv (ht ▸ hnv)
            · exact Or.inr ⟨e2, hmem, ht, hnv⟩
      · rw [if_neg hv, ih]
        constructor
        · rintro (h | h)
          · rcases Finset.mem_insert.mp h with rfl | hdn
            · exact Or.inr ⟨e, by simp, rfl, hv⟩
            · exact Or.inl hdn
          · exact Or.inr (by rcases h with ⟨e2, he2, ht, hnv⟩; exact ⟨e2, by simp [he2], ht, hnv⟩)
        · rintro (h | ⟨e2, he2, ht, hnv⟩)
          · exact Or.inl (Finset.mem_insert_of_mem h)
          · rcases List.mem_cons.mp he2 with rfl | hmem
            · exact Or.inl (ht ▸ Finset.mem_insert_self _ _)
            · exact Or.inr ⟨e2, hmem, ht, hnv⟩

/-- The starting node, once in the visited set, is never recorded as its own
descendant. -/
theorem bfsAux_not_mem_dn (E : List EdgeRec) (N : String) :
    ∀ fuel queue vis dn de res, N ∈ vis → N ∉ dn →
      bfsAux E fuel queue vis dn de = some res → N ∉ res.1 := by
  intro fuel
  induction fuel with
  | zero =>
      intro queue vis dn de res _ hdn hres
      by_cases hq : queue.isEmpty
      · simp [bfsAux, hq] at hres
        simpa [← hres] using hdn
      · simp [bfsAux, hq] at hres
  | succ fuel ih =>
      intro queue vis dn de res hvis hdn hres
      cases queue with
      | nil =>
          simp [bfsAux] at hres
          simpa [← hres] using hdn
      | cons curr rest =>
          simp only [bfsAux] at hres
          by_cases hc : curr ∈ vis
          · rw [if_pos hc] at hres
            exact ih rest vis dn de res hvis hdn hres
          · rw [if_neg hc] at hres
            refine ih _ _ _ _ res (Finset.mem_insert_of_mem hvis) ?_ hres
            rw [mem_foldl_insert_target]
            rintro (h | ⟨e, _, ht, hnv⟩)
            · exact hdn h
            · exact hnv (ht ▸ Finset.mem_insert_of_mem hvis)

/-- The descendant-closure computation of onCollapse: BFS from nodeId with
fuel one more than the number of edges (shown sufficient above, so the
default branch is dead). -/
def collapseBFS (E : List EdgeRec) (nodeId : String) : Finset String × Finset String :=
  (bfsAux E (1 + E.length) [nodeId] ∅ ∅ ∅).getD (∅, ∅)

theorem collapseBFS_eq_some (E : List EdgeRec) (nodeId : String) :
    bfsAux E (1 + E.length) [nodeId] ∅ ∅ ∅ = some (collapseBFS E nodeId) := by
  have h : bfsMeasure E [nodeId] ∅ ≤ 1 + E.length := by
    simp only [bfsMeasure, List.length_cons, List.length_nil]
    have := List.length_filter_le (fun e => !(decide (e.source ∈ (∅ : Finset String)))) E
    omega
  have hs := bfsAux_isSome E (1 + E.length) [nodeId] ∅ ∅ ∅ h
  rcases ho : bfsAux E (1 + E.length) [nodeId] ∅ ∅ ∅ with _ | res
  · rw [ho] at hs; simp at hs
  · simp [collapseBFS, ho]

theorem bfsAux_succ_cons (E : List EdgeRec) (fuel : Nat) (curr : String)
    (rest : List String) (vis dn de : Finset String) :
    bfsAux E (fuel + 1) (curr :: rest) vis dn de =
      if curr ∈ vis then bfsAux E fuel rest vis dn de
      else
        bfsAux E fuel
          (rest ++ (((E.filter (fun e => e.source == curr)).filter
            (fun e => !(decide (e.target ∈ insert curr vis)))).map (fun e => e.target)))
          (insert curr vis)
          ((E.filter (fun e => e.source == curr)).foldl
            (fun acc e => if e.target ∈ insert curr vis then acc
              else insert e.target acc) dn)
          ((E.filter (fun e => e.source == curr)).foldl
            (fun acc e => insert e.id acc) de) := rfl

theorem not_mem_collapseBFS_self (E : List EdgeRec) (N : String) :
    N ∉ (collapseBFS E N).1 := by
  have hsome := collapseBFS_eq_some E N
  rw [show 1 + E.length = E.length + 1 from by omega, bfsAux_succ_cons,
    if_neg (by simp : ¬ N ∈ (∅ : Finset String))] at hsome
  refine bfsAux_not_mem_dn E N _ _ _ _ _ _ (Finset.mem_insert_self _ _) ?_ hsome
  rw [mem_foldl_insert_target]
  rintro (h | ⟨e, _, ht, hnv⟩)
  · simp at h
  · exact hnv (ht ▸ Finset.mem_insert_self _ _)

/-- Translation of onCollapse: compute the descendant closure by BFS, set
hidden to shouldCollapse on the closure's edges and nodes, and set collapsed
and collapsedCount (the closure size, or zero on expand) on nodeId itself. -/
def onCollapse (st : FlowState) (nodeId : String) (shouldCollapse : Bool) : FlowState :=
  let dnde := collapseBFS st.edges nodeId
  let cnt := if shouldCollapse then dnde.1.card else 0
  { nodes := st.nodes.map (fun n =>
      if n.id ∈ dnde.1 then { n with hidden := some shouldCollapse }
      else if n.id = nodeId then
        { n with data := n.data.withCollapsed shouldCollapse cnt }
      else n),
    edges := st.edges.map (fun e =>
      if e.id ∈ dnde.2 then { e with hidden := some shouldCollapse } else e) }

/-- The BFS reads only the id, source and target fields of edges, so any
edge transformation preserving those three fields (such as toggling hidden)
leaves the computed closure unchanged. -/
theorem bfsAux_map_invariant (E : List EdgeRec) (f : EdgeRec → EdgeRec)
    (hid : ∀ e, (f e).id = e.id) (hsrc : ∀ e, (f e).source = e.source)
    (htgt : ∀ e, (f e).target = e.target) :
    ∀ fuel queue vis dn de,
      bfsAux (E.map f) fuel queue vis dn de = bfsAux E fuel queue vis dn de := by
  intro fuel
  induction fuel with
  | zero => intro queue vis dn de; rfl
  | succ fuel ih =>
      intro queue vis dn de
      cases queue with
      | nil => rfl
      | cons curr rest =>
          rw [bfsAux_succ_cons, bfsAux_succ_cons]
          by_cases hc : curr ∈ vis
          · rw [if_pos hc, if_pos hc, ih]
          · rw [if_neg hc, if_neg hc]
            have hfil : (E.map f).filter (fun e => e.source == curr) =
                (E.filter (fun e => e.source == curr)).map f := by
              rw [List.filter_map]
              have hcomp : ((fun e : EdgeRec => e.source == curr) ∘ f) =
                  (fun e : EdgeRec => e.source == curr) := by
                funext e
                simp [Function.comp, hsrc]
              rw [hcomp]
            rw [hfil]
            have h1 : ((E.filter (fun e => e.source == curr)).map f).foldl
                (fun acc e => if e.target ∈ insert curr vis then acc
                  else insert e.target acc) dn =
                (E.filter (fun e => e.source == curr)).foldl
                (fun acc e => if e.target ∈ insert curr vis then acc
                  else insert e.target acc) dn := by
              rw [List.foldl_map]
              congr 1
              funext acc e
              rw [htgt]
            have h2 : ((E.filter (fun e => e.source == curr)).map f).foldl
                (fun acc e => insert e.id acc) de =
                (E.filter (fun e => e.source == curr)).foldl
                (fun acc e => insert e.id acc) de := by
              rw [List.foldl_map]
              congr 1
              funext acc e
              rw [hid]
            have h3 : (((E.filter (fun e => e.source == curr)).map f).filter
                (fun e => !(decide (e.target ∈ insert curr vis)))).map
                  (fun e => e.target) =
                ((E.filter (fun e => e.source == curr)).filter
                (fun e => !(decide (e.target ∈ insert curr vis)))).map
                  (fun e => e.target) := by
              rw [List.filter_map, List.map_map]
              have hcomp1 : ((fun e : EdgeRec => !(decide (e.target ∈ insert curr vis))) ∘ f) =
                  (fun e : EdgeRec => !(decide (e.target ∈ insert curr vis))) := by
                funext e
                simp [Function.comp, htgt]
              have hcomp2 : ((fun e : EdgeRec => e.target) ∘ f) =
                  (fun e : EdgeRec => e.target) := by
                funext e
                simp [Function.comp, htgt]
              rw [hcomp1, hcomp2]
            rw [h1, h2, h3, ih]

theorem collapseBFS_map_invariant (E : List EdgeRec) (f : EdgeRec → EdgeRec)
    (hid : ∀ e, (f e).id = e.id) (hsrc : ∀ e, (f e).source = e.source)
    (htgt : ∀ e, (f e).target = e.target) (n : String) :
    collapseBFS (E.map f) n = collapseBFS E n := by
  unfold collapseBFS
  rw [List.length_map, bfsAux_map_invariant E f hid hsrc htgt]

theorem withCollapsed_withCollapsed (d : NodeData) (b b2 : Bool) (k k2 : Nat) :
    (d.withCollapsed b k).withCollapsed b2 k2 = d.withCollapsed b2 k2 := by
  cases d <;> rfl

/-- C9: re-applying collapse with the same shouldCollapse value over the
unchanged graph is a no-op in effect — the node and edge state after two
applications equals the state after one. -/
theorem onCollapse_idempotent (st : FlowState) (N : String) (b : Bool) :
    onCollapse (onCollapse st N b) N b = onCollapse st N b := by
  simp only [onCollapse]
  have hstab : collapseBFS (st.edges.map (fun e =>
      if e.id ∈ (collapseBFS st.edges N).2 then { e with hidden := some b }
      else e)) N = collapseBFS st.edges N := by
    apply collapseBFS_map_invariant
    · intro e; dsimp only; split <;> rfl
    · intro e; dsimp only; split <;> rfl
    · intro e; dsimp only; split <;> rfl
  simp only [hstab]
  rw [List.map_map, List.map_map]
  congr 1
  · congr 1
    funext n
    dsimp only [Function.comp]
    by_cases h1 : n.id ∈ (collapseBFS st.edges N).1
    · simp [h1]
    · by_cases h2 : n.id = N
      · rw [h2] at h1
        simp [h1, h2, withCollapsed_withCollapsed]
      · simp [h1, h2]
  · congr 1
    funext e
    dsimp only [Function.comp]
    by_cases h1 : e.id ∈ (collapseBFS st.edges N).2
    · simp [h1]
    · simp [h1]

/-- C2: for a node N of the canvas with BFS-computed descendant node set D
(of size D.card) and descendant edge set Ed, collapsing sets hidden on
exactly D's nodes and Ed's edges and stores collapsed plus the descendant
count on N; expanding afterwards clears hidden on the same two sets (the
closure is unchanged because collapse only toggles hidden) and resets the
count to zero; N is never inside D, and every node and edge outside D, Ed
and N is left unchanged by both calls. -/
theorem onCollapse_roundtrip (st : FlowState) (N : String)
    (hN : N ∈ st.nodes.map (fun n => n.id)) :
    N ∉ (collapseBFS st.edges N).1 ∧
    (onCollapse st N true).nodes = st.nodes.map (fun n =>
        if n.id ∈ (collapseBFS st.edges N).1 then { n with hidden := some true }
        else if n.id = N then
          { n with data := n.data.withCollapsed true (collapseBFS st.edges N).1.card }
        else n) ∧
    (onCollapse st N true).edges = st.edges.map (fun e =>
        if e.id ∈ (collapseBFS st.edges N).2 then { e with hidden := some true }
        else e) ∧
    (onCollapse (onCollapse st N true) N false).nodes = st.nodes.map (fun n =>
        if n.id ∈ (collapseBFS st.edges N).1 then { n with hidden := some false }
        else if n.id = N then
          { n with data := n.data.withCollapsed false 0 }
        else n) ∧
    (onCollapse (onCollapse st N true) N false).edges = st.edges.map (fun e =>
        if e.id ∈ (collapseBFS st.edges N).2 then { e with hidden := some false }
        else e) := by
  have hstab : collapseBFS (st.edges.map (fun e =>
      if e.id ∈ (collapseBFS st.edges N).2 then { e with hidden := some true }
      else e)) N = collapseBFS st.edges N := by
    apply collapseBFS_map_invariant
    · intro e; dsimp only; split <;> rfl
    · intro e; dsimp only; split <;> rfl
    · intro e; dsimp only; split <;> rfl
  refine ⟨not_mem_collapseBFS_self st.edges N, by simp [onCollapse], by simp [onCollapse], ?_, ?_⟩
  · conv_lhs => simp only [onCollapse]
    simp only [hstab]
    rw [List.map_map]
    congr 1
    funext n
    dsimp only [Function.comp]
    by_cases h1 : n.id ∈ (collapseBFS st.edges N).1
    · simp [h1]
    · by_cases h2 : n.id = N
      · rw [h2] at h1
        simp [h1, h2, withCollapsed_withCollapsed]
      · simp [h1, h2]
  · conv_lhs => simp only [onCollapse]
    simp only [hstab]
    rw [List.map_map]
    congr 1
    funext e
    dsimp only [Function.comp]
    by_cases h1 : e.id ∈ (collapseBFS st.edges N).2
    · simp [h1]
    · simp [h1]

/-- C2 witness: the round-trip theorem evaluated on the concrete chain
a to b to c collapsed at a. -/
theorem onCollapse_roundtrip_witness :
    ("a" ∈ (FlowState.mk
        [{ id := "a", position := ⟨0, 0⟩, data := .chat { id := "a" } },
         { id := "b", position := ⟨0, 0⟩, data := .chat { id := "b" } },
         { id := "c", position := ⟨0, 0⟩, data := .chat { id := "c" } }]
        [{ id := "e1", source := "a", target := "b" },
         { id := "e2", source := "b", target := "c" }]).nodes.map
          (fun n => n.id)) ∧
    "a" ∉ (collapseBFS (FlowState.mk
        [{ id := "a", position := ⟨0, 0⟩, data := .chat { id := "a" } },
         { id := "b", position := ⟨0, 0⟩, data := .chat { id := "b" } },
         { id := "c", position := ⟨0, 0⟩, data := .chat { id := "c" } }]
        [{ id := "e1", source := "a", target := "b" },
         { id := "e2", source := "b", target := "c" }]).edges "a").1 := by
  refine ⟨by decide, ?_⟩
  exact (onCollapse_roundtrip (FlowState.mk
        [{ id := "a", position := ⟨0, 0⟩, data := .chat { id := "a" } },
         { id := "b", position := ⟨0, 0⟩, data := .chat { id := "b" } },
         { id := "c", position := ⟨0, 0⟩, data := .chat { id := "c" } }]
        [{ id := "e1", source := "a", target := "b" },
         { id := "e2", source := "b", target := "c" }]) "a" (by decide)).1

/-- C10: the descendant BFS halts within a number of loop iterations bounded
by the queue length plus the edge count, for every finite edge list — also
one whose edges form a directed cycle — because each node id is expanded at
most once; in particular the fuel used by collapseBFS always suffices. -/
theorem bfs_terminates_all_inputs (E : List EdgeRec) (nodeId : String) :
    (bfsAux E (1 + E.length) [nodeId] ∅ ∅ ∅).isSome ∧
    ∀ queue vis dn de, (bfsAux E (bfsMeasure E queue vis) queue vis dn de).isSome := by
  constructor
  · rw [collapseBFS_eq_some E nodeId]
    rfl
  · intro queue vis dn de
    exact bfsAux_isSome E _ queue vis dn de le_rfl

/-! ## Connection validation: reachability DFS, addEdge, onConnect, onBranch -/

/-- Translation of the for-loop of canReach: the sibling recursive calls
share one mutable visited Set in the source, so the visited list is threaded
through the loop; a true result aborts the loop. -/
def canReachList (canRA : String → List String → Option (Bool × List String)) :
    List EdgeRec → List String → Option (Bool × List String)
  | [], vis => some (false, vis)
  | e :: rest, vis =>
    match canRA e.target vis with
    | none => none
    | some (true, vis2) => some (true, vis2)
    | some (false, vis2) => canReachList canRA rest vis2

/-- Translation of the canReach DFS of onConnect.  One fuel unit is one level
of recursion depth; the JS recursion has no explicit bound and terminates
because every call inserts a fresh node into the shared visited Set, which is
proved below as sufficiency of the fuel used at the call site. -/
def canReachAux (E : List EdgeRec) (tgt : String) :
    Nat → String → List String → Option (Bool × List String)
  | 0 => fun _ _ => none
  | fuel + 1 => fun src vis =>
    if src = tgt then some (true, vis)
    else if src ∈ vis then some (false, vis)
    else canReachList (canReachAux E tgt fuel)
      (E.filter (fun e => e.source == src)) (src :: vis)

/-- Top-level canReach(from, to) with the (provably sufficient) fuel;
the none branch is dead. -/
def canReach (E : List EdgeRec) (src tgt : String) : Bool :=
  match canReachAux E tgt (E.length + 2) src [] with
  | some (b, _) => b
  | none => false

/-- The edge id generated by the React Flow addEdge helper for a connection
without handles. -/
def connEdgeId (s t : String) : String := "xy-edge__" ++ s ++ "-" ++ t

/-- The React Flow addEdge helper: appends the edge unless an edge with the
same source and target already exists. -/
def addEdge (e : EdgeRec) (eds : List EdgeRec) : List EdgeRec :=
  if eds.any (fun x => x.source == e.source && x.target == e.target) then eds
  else eds ++ [e]

inductive ConnectOutcome
  | missingId
  | cycleWarning
  | connected
deriving DecidableEq

/-- Translation of onConnect: reject silently when source or target is
falsy, reject with the user-facing cycle alert when the target can already
reach the source through existing edges, and otherwise add the edge. -/
def onConnect (st : FlowState) (source target : Option String) :
    FlowState × ConnectOutcome :=
  match source, target with
  | some s, some t =>
    if s = "" ∨ t = "" then (st, .missingId)
    else if canReach st.edges t s then (st, .cycleWarning)
    else
      let newEdge : EdgeRec := { id := connEdgeId s t, source := s, target := t }
      ({ st with edges := addEdge newEdge st.edges }, .connected)
  | _, _ => (st, .missingId)

/-- The highlight-recording update of onBranch, applied to every node:
acting only on the chat-typed source node, and only when the exact quoted
text is not yet in its highlight list. -/
def highlightUpdate (quoteText sourceNodeId : String) (node : NodeRec) : NodeRec :=
  if node.id = sourceNodeId then
    match node.data with
    | .chat cd =>
      if quoteText ∈ cd.highlights.getD [] then node
      else
        let cd2 := { cd with
          highlights := some (cd.highlights.getD [] ++ [quoteText]) }
        { node with data := .chat cd2 }
    | _ => node
  else node

/-- The chat node created by onBranch: quoted text plus settings inherited
from the source payload when the keys are present, else off and false, at a
horizontal offset that is wider for research sources plus vertical jitter. -/
def branchNewNode (sourceNode : NodeRec) (quoteText newNodeId : String)
    (rand : Rat) : NodeRec :=
  let xOffset : Rat := if sourceNode.kind = .researchNode then 800 else 600
  let inheritedReasoning : ReasoningMode :=
    match sourceNode.data with
    | .chat cd => cd.reasoningMode.getD .off
    | _ => .off
  let inheritedSearch : Bool :=
    match sourceNode.data with
    | .chat cd => cd.isSearchEnabled.getD false
    | _ => false
  let newData : ChatNodeData :=
    { id := newNodeId, quote := some quoteText,
      reasoningMode := some inheritedReasoning,
      isSearchEnabled := some inheritedSearch }
  { id := newNodeId,
    position := ⟨sourceNode.position.x + xOffset, sourceNode.position.y + rand⟩,
    data := .chat newData }

/-- The edge created by onBranch from the source node to the new node. -/
def branchNewEdge (sourceNodeId newNodeId : String) : EdgeRec :=
  { id := "e-" ++ sourceNodeId ++ "-" ++ newNodeId,
    source := sourceNodeId, target := newNodeId, animated := true }

/-- Translation of onBranch: look up the source node (no-op when absent),
apply the highlight update, then append the new chat node and add the edge
from the source to it.  The new node id (time-generated in the source) and
the vertical jitter sample are passed as arguments. -/
def onBranch (st : FlowState) (quoteText sourceNodeId newNodeId : String)
    (rand : Rat) : FlowState :=
  match st.nodes.find? (fun n => n.id == sourceNodeId) with
  | none => st
  | some sourceNode =>
    let nodes1 :=
      if sourceNode.kind = .chatNode then
        st.nodes.map (highlightUpdate quoteText sourceNodeId)
      else st.nodes
    { nodes := nodes1 ++ [branchNewNode sourceNode quoteText newNodeId rand],
      edges := addEdge (branchNewEdge sourceNodeId newNodeId) st.edges }

/-! ## Abstract reachability and correctness of the DFS -/

/-- One directed step along an edge of E. -/
def stepE (E : List EdgeRec) (a b : String) : Prop :=
  ∃ e ∈ E, e.source = a ∧ e.target = b

/-- Reachability by zero or more directed steps. -/
def Reaches (E : List EdgeRec) (a b : String) : Prop :=
  Relation.ReflTransGen (stepE E) a b

/-- The edge set contains no directed cycle. -/
def Acyclic (E : List EdgeRec) : Prop :=
  ∀ v, ¬ Relation.TransGen (stepE E) v v

/-- A path to tgt whose vertices after the first avoid the visited list. -/
inductive Escapes (E : List EdgeRec) (tgt : String) (vis : List String) : String → Prop
  | done : Escapes E tgt vis tgt
  | step {v w : String} : stepE E v w → w ∉ vis → Escapes E tgt vis w →
      Escapes E tgt vis v

theorem Escapes.mono {E : List EdgeRec} {tgt : String} {vis vis2 : List String}
    (hsub : ∀ x ∈ vis, x ∈ vis2) {v : String}
    (h : Escapes E tgt vis2 v) : Escapes E tgt vis v := by
  induction h with
  | done => exact .done
  | step hs hn _ ih => exact .step hs (fun hmem => hn (hsub _ hmem)) ih

theorem canReachList_suffix (canRA : String → List String → Option (Bool × List String))
    (H : ∀ t vis r, canRA t vis = some r → ∃ pre, r.2 = pre ++ vis) :
    ∀ (l : List EdgeRec) (vis : List String) (r : Bool × List String),
      canReachList canRA l vis = some r → ∃ pre, r.2 = pre ++ vis := by
  intro l
  induction l with
  | nil =>
      intro vis r h
      simp only [canReachList, Option.some.injEq] at h
      exact ⟨[], by simp [← h]⟩
  | cons e rest ih =>
      intro vis r h
      simp only [canReachList] at h
      rcases hr : canRA e.target vis with _ | ⟨b, vis2⟩
      · rw [hr] at h; exact absurd h (by simp)
      · rw [hr] at h
        rcases H _ _ _ hr with ⟨pre1, hpre1⟩
        cases b with
        | true =>
            simp only [Option.some.injEq] at h
            exact ⟨pre1, by rw [← h]; exact hpre1⟩
        | false =>
            rcases ih vis2 r h with ⟨pre2, hpre2⟩
            have hv2 : vis2 = pre1 ++ vis := hpre1
            exact ⟨pre2 ++ pre1, by rw [hpre2, hv2, List.append_assoc]⟩

theorem canReachAux_suffix (E : List EdgeRec) (tgt : String) :
    ∀ fuel src vis r, canReachAux E tgt fuel src vis = some r →
      ∃ pre, r.2 = pre ++ vis := by
  intro fuel
  induction fuel with
  | zero => intro src vis r h; exact absurd h (by simp [canReachAux])
  | succ fuel ih =>
      intro src vis r h
      simp only [canReachAux] at h
      by_cases h1 : src = tgt
      · rw [if_pos h1] at h
        simp only [Option.some.injEq] at h
        exact ⟨[], by simp [← h]⟩
      · rw [if_neg h1] at h
        by_cases h2 : src ∈ vis
        · rw [if_pos h2] at h
          simp only [Option.some.injEq] at h
          exact ⟨[], by simp [← h]⟩
        · rw [if_neg h2] at h
          rcases canReachList_suffix _ (fun t v r2 hr => ih t v r2 hr) _ _ _ h with ⟨pre, hpre⟩
          exact ⟨pre ++ [src], by rw [hpre]; simp⟩

theorem canReachList_true_sound (canRA : String → List String → Option (Bool × List String))
    (P : String → Prop)
    (H : ∀ t vis vis2, canRA t vis = some (true, vis2) → P t) :
    ∀ (l : List EdgeRec) (vis vis2 : List String),
      canReachList canRA l vis = some (true, vis2) → ∃ e ∈ l, P e.target := by
  intro l
  induction l with
  | nil => intro vis vis2 h; exact absurd h (by simp [canReachList])
  | cons e rest ih =>
      intro vis vis2 h
      simp only [canReachList] at h
      rcases hr : canRA e.target vis with _ | ⟨b, visM⟩
      · rw [hr] at h; exact absurd h (by simp)
      · rw [hr] at h
        cases b with
        | true => exact ⟨e, by simp, H _ _ _ hr⟩
        | false =>
            rcases ih visM vis2 h with ⟨e2, he2, hP⟩
            exact ⟨e2, List.mem_cons_of_mem _ he2, hP⟩

theorem canReachAux_true_sound (E : List EdgeRec) (tgt : String) :
    ∀ fuel src vis vis2, canReachAux E tgt fuel src vis = some (true, vis2) →
      Reaches E src tgt := by
  intro fuel
  induction fuel with
  | zero => intro src vis vis2 h; exact absurd h (by simp [canReachAux])
  | succ fuel ih =>
      intro src vis vis2 h
      simp only [canReachAux] at h
      by_cases h1 : src = tgt
      · exact h1 ▸ Relation.ReflTransGen.refl
      · rw [if_neg h1] at h
        by_cases h2 : src ∈ vis
        · rw [if_pos h2] at h
          simp at h
        · rw [if_neg h2] at h
          rcases canReachList_true_sound _ (fun t => Reaches E t tgt)
              (fun t v v2 hr => ih t v v2 hr) _ _ _ h with ⟨e, he, hP⟩
          have heE := List.mem_filter.mp he
          have hsrc : e.source = src := by
            have := heE.2
            simpa using this
          exact Relation.ReflTransGen.head ⟨e, heE.1, hsrc, rfl⟩ hP

theorem canReachList_false_spec (E : List EdgeRec) (tgt : String)
    (canRA : String → List String → Option (Bool × List String))
    (Hsuffix : ∀ t vis r, canRA t vis = some r → ∃ pre, r.2 = pre ++ vis)
    (Hfalse : ∀ t vis visF, canRA t vis = some (false, visF) →
      t ∈ visF ∧ ∀ v ∈ visF, v ∉ vis → ¬ Escapes E tgt visF v) :
    ∀ (l : List EdgeRec) (vis1 visF : List String),
      canReachList canRA l vis1 = some (false, visF) →
        (∃ pre, visF = pre ++ vis1) ∧ (∀ e ∈ l, e.target ∈ visF) ∧
        (∀ v ∈ visF, v ∉ vis1 → ¬ Escapes E tgt visF v) := by
  intro l
  induction l with
  | nil =>
      intro vis1 visF h
      simp only [canReachList, Option.some.injEq, Prod.mk.injEq] at h
      refine ⟨⟨[], by simp [← h.2]⟩, by simp, ?_⟩
      intro v hv hnv
      rw [← h.2] at hv
      exact absurd hv hnv
  | cons e rest ih =>
      intro vis1 visF h
      simp only [canReachList] at h
      rcases hr : canRA e.target vis1 with _ | ⟨b, vis2⟩
      · rw [hr] at h; exact absurd h (by simp)
      · rw [hr] at h
        cases b with
        | true => simp at h
        | false =>
            obtain ⟨htmem, hinner⟩ := Hfalse _ _ _ hr
            obtain ⟨pre1, hpre1⟩ := Hsuffix _ _ _ hr
            obtain ⟨⟨pre2, hpre2⟩, htargets, houter⟩ := ih vis2 visF h
            have hsub12 : ∀ x ∈ vis2, x ∈ visF := by
              intro x hx
              rw [hpre2]
              exact List.mem_append_right pre2 hx
            have hpre1' : vis2 = pre1 ++ vis1 := hpre1
            refine ⟨⟨pre2 ++ pre1, by rw [hpre2, hpre1', List.append_assoc]⟩, ?_, ?_⟩
            · intro e2 he2
              rcases List.mem_cons.mp he2 with rfl | hmem
              · exact hsub12 _ htmem
              · exact htargets e2 hmem
            · intro v hv hnv1
              by_cases hv2 : v ∈ vis2
              · have hne : ¬ Escapes E tgt vis2 v := hinner v hv2 hnv1
                intro hesc
                exact hne (Escapes.mono hsub12 hesc)
              · exact houter v hv hv2

theorem canReachAux_false_spec (E : List EdgeRec) (tgt : String) :
    ∀ fuel src vis visF, canReachAux E tgt fuel src vis = some (false, visF) →
      src ∈ visF ∧ ∀ v ∈ visF, v ∉ vis → ¬ Escapes E tgt visF v := by
  intro fuel
  induction fuel with
  | zero => intro src vis visF h; exact absurd h (by simp [canReachAux])
  | succ fuel ih =>
      intro src vis visF h
      simp only [canReachAux] at h
      by_cases h1 : src = tgt
      · rw [if_pos h1] at h; simp at h
      · rw [if_neg h1] at h
        by_cases h2 : src ∈ vis
        · rw [if_pos h2] at h
          simp only [Option.some.injEq, Prod.mk.injEq] at h
          refine ⟨h.2 ▸ h2, ?_⟩
          intro v hv hnv
          rw [← h.2] at hv
          exact absurd hv hnv
        · rw [if_neg h2] at h
          obtain ⟨⟨pre, hpre⟩, htargets, hc⟩ :=
            canReachList_false_spec E tgt _ (fun t v r hr => canReachAux_suffix E tgt fuel t v r hr)
              (fun t v vF hr => ih t v vF hr) _ _ _ h
          have hsrcF : src ∈ visF := by
            rw [hpre]
            exact List.mem_append_right pre (List.mem_cons_self _ _)
          refine ⟨hsrcF, ?_⟩
          intro v hv hnv
          by_cases hvs : v = src
          · subst hvs
            intro hesc
            cases hesc with
            | done => exact h1 rfl
            | step hs hn hesc2 =>
                rcases hs with ⟨e, heE, hesrc, hetgt⟩
                apply hn
                rw [← hetgt]
                apply htargets
                rw [List.mem_filter]
                exact ⟨heE, by simp [hesrc]⟩
          · have : v ∉ src :: vis := by
              intro hmem
              rcases List.mem_cons.mp hmem with h' | h'
              · exact hvs h'
              · exact hnv h'
            exact hc v hv this

/-- Recursion-depth measure for the DFS: ids that can still enter the
visited list (the current node and all edge targets) and are not yet in
it. -/
def reachMeasure (E : List EdgeRec) (src : String) (vis : List String) : Nat :=
  ((insert src (E.map (fun e => e.target)).toFinset).filter (fun x => x ∉ vis)).card

theorem reachMeasure_lt (E : List EdgeRec) {e : EdgeRec} (he : e ∈ E) {src : String}
    {vis vis2 : List String} (hsrc : src ∉ vis) (hsub : ∀ x ∈ vis, x ∈ vis2)
    (hsrc2 : src ∈ vis2) : reachMeasure E e.target vis2 < reachMeasure E src vis := by
  apply Finset.card_lt_card
  rw [Finset.ssubset_iff_of_subset]
  · refine ⟨src, ?_, ?_⟩
    · simp [hsrc]
    · simp [hsrc2]
  · intro x hx
    simp only [Finset.mem_filter, Finset.mem_insert, List.mem_toFinset,
      List.mem_map] at hx ⊢
    obtain ⟨hx1, hx2⟩ := hx
    refine ⟨?_, fun hmem => hx2 (hsub x hmem)⟩
    right
    rcases hx1 with rfl | hmap
    · exact ⟨e, he, rfl⟩
    · exact hmap

theorem canReachList_isSome (E : List EdgeRec) (tgt : String) (fuel : Nat)
    (src : String) (vis : List String) (hsrc : src ∉ vis)
    (hm : reachMeasure E src vis ≤ fuel)
    (hIH : ∀ t v, reachMeasure E t v < fuel → (canReachAux E tgt fuel t v).isSome) :
    ∀ (l : List EdgeRec), (∀ e ∈ l, e ∈ E) →
      ∀ vis1, (∀ x ∈ src :: vis, x ∈ vis1) →
        (canReachList (canReachAux E tgt fuel) l vis1).isSome := by
  intro l
  induction l with
  | nil => intro _ vis1 _; simp [canReachList]
  | cons e rest ih =>
      intro hl vis1 hsub
      have he : e ∈ E := hl e (List.mem_cons_self _ _)
      have hlt : reachMeasure E e.target vis1 < fuel := by
        apply lt_of_lt_of_le _ hm
        exact reachMeasure_lt E he hsrc
          (fun x hx => hsub x (List.mem_cons_of_mem _ hx))
          (hsub src (List.mem_cons_self _ _))
      have hsome := hIH e.target vis1 hlt
      rcases hopt : canReachAux E tgt fuel e.target vis1 with _ | ⟨b, vis2⟩
      · rw [hopt] at hsome; simp at hsome
      · simp only [canReachList]
        rw [hopt]
        cases b with
        | true => simp
        | false =>
            apply ih (fun e2 he2 => hl e2 (List.mem_cons_of_mem _ he2)) vis2
            intro x hx
            rcases canReachAux_suffix E tgt fuel e.target vis1 (false, vis2) hopt with
              ⟨pre, hpre⟩
            have hv2 : vis2 = pre ++ vis1 := hpre
            rw [hv2]
            exact List.mem_append_right pre (hsub x hx)

theorem canReachAux_isSome (E : List EdgeRec) (tgt : String) :
    ∀ fuel src vis, reachMeasure E src vis < fuel →
      (canReachAux E tgt fuel src vis).isSome := by
  intro fuel
  induction fuel with
  | zero => intro src vis h; exact absurd h (Nat.not_lt_zero _)
  | succ fuel ih =>
      intro src vis h
      simp only [canReachAux]
      by_cases h1 : src = tgt
      · simp [h1]
      · rw [if_neg h1]
        by_cases h2 : src ∈ vis
        · simp [h2]
        · rw [if_neg h2]
          exact canReachList_isSome E tgt fuel src vis h2 (Nat.lt_succ_iff.mp h) ih
            (E.filter (fun e => e.source == src))
            (fun e he => (List.mem_filter.mp he).1)
            (src :: vis) (fun x hx => hx)

theorem canReach_fuel_isSome (E : List EdgeRec) (src tgt : String) :
    (canReachAux E tgt (E.length + 2) src []).isSome := by
  apply canReachAux_isSome
  unfold reachMeasure
  have h1 : ((insert src (E.map (fun e => e.target)).toFinset).filter
      (fun x => x ∉ ([] : List String))) =
      insert src (E.map (fun e => e.target)).toFinset := by
    apply Finset.filter_true_of_mem
    intro x _
    simp
  rw [h1]
  have h2 := Finset.card_insert_le src (E.map (fun e => e.target)).toFinset
  have h3 := (E.map (fun e => e.target)).toFinset_card_le
  simp only [List.length_map] at h3
  omega

theorem reaches_escapes (E : List EdgeRec) (tgt : String) (visF : List String)
    (hall : ∀ u ∈ visF, ¬ Escapes E tgt visF u) :
    ∀ v, Reaches E v tgt → Escapes E tgt visF v := by
  intro v h
  induction h using Relation.ReflTransGen.head_induction_on with
  | refl => exact .done
  | @head a c hstep _ ih =>
      by_cases hc : c ∈ visF
      · exact absurd ih (hall c hc)
      · exact .step hstep hc ih

/-- The top-level canReach agrees with abstract reachability along directed
edges: soundness from the true-result induction, completeness from the
visited-set specification of a false result. -/
theorem canReach_iff (E : List EdgeRec) (src tgt : String) :
    canReach E src tgt = true ↔ Reaches E src tgt := by
  unfold canReach
  rcases hopt : canReachAux E tgt (E.length + 2) src [] with _ | ⟨b, visF⟩
  · have := canReach_fuel_isSome E src tgt
    rw [hopt] at this
    simp at this
  · cases b with
    | true =>
        simp only [true_iff]
        exact canReachAux_true_sound E tgt _ src [] visF hopt
    | false =>
        simp only [Bool.false_eq_true, false_iff]
        intro hreach
        obtain ⟨hsrcmem, hall⟩ := canReachAux_false_spec E tgt _ src [] visF hopt
        have hall2 : ∀ u ∈ visF, ¬ Escapes E tgt visF u :=
          fun u hu => hall u hu (by simp)
        exact hall2 src hsrcmem (reaches_escapes E tgt visF hall2 src hreach)

/-! ## Acyclicity preservation of connect and branch -/

theorem reaches_append (E : List EdgeRec) (e0 : EdgeRec) {x y : String}
    (h : Relation.ReflTransGen (stepE (E ++ [e0])) x y) :
    Reaches E x y ∨ (Reaches E x e0.source ∧
      Relation.ReflTransGen (stepE (E ++ [e0])) e0.target y) := by
  induction h using Relation.ReflTransGen.head_induction_on with
  | refl => exact Or.inl .refl
  | @head a c hstep hrest ih =>
      rcases hstep with ⟨e, heE, hes, het⟩
      rcases List.mem_append.mp heE with hE | he0
      · rcases ih with hl | ⟨hr1, hr2⟩
        · exact Or.inl (Relation.ReflTransGen.head ⟨e, hE, hes, het⟩ hl)
        · exact Or.inr ⟨Relation.ReflTransGen.head ⟨e, hE, hes, het⟩ hr1, hr2⟩
      · have he0' : e = e0 := by simpa using he0
        subst he0'
        refine Or.inr ⟨?_, ?_⟩
        · rw [← hes]
          exact Relation.ReflTransGen.refl
        · rw [het]
          exact hrest


theorem stepE_append_left {E : List EdgeRec} (e0 : EdgeRec) {a b : String}
    (h : stepE E a b) : stepE (E ++ [e0]) a b := by
  rcases h with ⟨e, he, h1, h2⟩
  exact ⟨e, List.mem_append_left _ he, h1, h2⟩

theorem acyclic_append (E : List EdgeRec) (e0 : EdgeRec) (hacyc : Acyclic E)
    (hnr : ¬ Reaches E e0.target e0.source) : Acyclic (E ++ [e0]) := by
  intro v hcyc
  rcases (Relation.TransGen.head'_iff).mp hcyc with ⟨w, hstep, hrest⟩
  rcases hstep with ⟨e, heE, hes, het⟩
  rcases List.mem_append.mp heE with hE | he0
  · rcases reaches_append E e0 hrest with hl | ⟨hr1, hr2⟩
    · exact hacyc v ((Relation.TransGen.head'_iff).mpr ⟨w, ⟨e, hE, hes, het⟩, hl⟩)
    · have hvw : Relation.ReflTransGen (stepE (E ++ [e0])) v w :=
        Relation.ReflTransGen.single (stepE_append_left e0 ⟨e, hE, hes, het⟩)
      have hws : Relation.ReflTransGen (stepE (E ++ [e0])) w e0.source :=
        Relation.ReflTransGen.mono (fun a b hab => stepE_append_left e0 hab) hr1
      have hts : Relation.ReflTransGen (stepE (E ++ [e0])) e0.target e0.source :=
        (hr2.trans hvw).trans hws
      rcases reaches_append E e0 hts with h1 | ⟨h1, _⟩
      · exact hnr h1
      · exact hnr h1
  · have he0' : e = e0 := by simpa using he0
    have hs0 : e0.source = v := he0' ▸ hes
    have ht0 : e0.target = w := he0' ▸ het
    have hts : Relation.ReflTransGen (stepE (E ++ [e0])) e0.target e0.source := by
      rw [ht0, hs0]
      exact hrest
    rcases reaches_append E e0 hts with h1 | ⟨h1, _⟩
    · exact hnr h1
    · exact hnr h1

theorem acyclic_addEdge (E : List EdgeRec) (e0 : EdgeRec) (hacyc : Acyclic E)
    (hnr : ¬ Reaches E e0.target e0.source) : Acyclic (addEdge e0 E) := by
  unfold addEdge
  split
  · exact hacyc
  · exact acyclic_append E e0 hacyc hnr

/-- After addEdge there is always an edge from the source to the target of
the requested connection, whether it was appended or already present. -/
theorem stepE_addEdge (e0 : EdgeRec) (eds : List EdgeRec) :
    stepE (addEdge e0 eds) e0.source e0.target := by
  unfold addEdge
  split
  · next hany =>
      rcases List.any_eq_true.mp hany with ⟨x, hx, hb⟩
      have hb2 := (Bool.and_eq_true _ _).mp hb
      exact ⟨x, hx, by simpa using hb2.1, by simpa using hb2.2⟩
  · exact ⟨e0, List.mem_append_right _ (List.mem_cons_self _ _), rfl, rfl⟩

theorem onConnect_acyclic (st : FlowState) (source target : Option String)
    (hacyc : Acyclic st.edges) :
    Acyclic ((onConnect st source target).1).edges := by
  rcases source with _ | s
  · exact hacyc
  · rcases target with _ | t
    · exact hacyc
    · simp only [onConnect]
      by_cases h1 : s = "" ∨ t = ""
      · rw [if_pos h1]
        exact hacyc
      · rw [if_neg h1]
        by_cases h2 : canReach st.edges t s
        · rw [if_pos h2]
          exact hacyc
        · rw [if_neg h2]
          apply acyclic_addEdge _ _ hacyc
          intro hre
          exact h2 ((canReach_iff st.edges t s).mpr hre)

theorem onBranch_acyclic (st : FlowState) (q S nid : String) (r : Rat)
    (hacyc : Acyclic st.edges) (hfresh1 : nid ≠ S)
    (hfresh2 : ∀ e ∈ st.edges, e.source ≠ nid) :
    Acyclic (onBranch st q S nid r).edges := by
  unfold onBranch
  rcases hfind : st.nodes.find? (fun n => n.id == S) with _ | srcNode
  · rw [hfind]
    exact hacyc
  · rw [hfind]
    refine acyclic_addEdge _ _ hacyc ?_
    intro hre
    rcases Relation.ReflTransGen.cases_head hre with heq | ⟨c, hstep, _⟩
    · exact hfresh1 heq
    · rcases hstep with ⟨e, heE, hes, _⟩
      exact hfresh2 e heE hes

/-! ## Operation sequences (branch and connect) -/

/-- A mutation of the graph by the user: a branch creation (with its
time-generated fresh id and jitter sample) or a raw connect attempt. -/
inductive Op
  | branch (quoteText sourceNodeId newNodeId : String) (rand : Rat)
  | connect (source target : Option String)

def applyOp (st : FlowState) : Op → FlowState
  | .branch q s nid r => onBranch st q s nid r
  | .connect s t => (onConnect st s t).1

def applyOps (st : FlowState) : List Op → FlowState
  | [] => st
  | op :: ops => applyOps (applyOp st op) ops

/-- Freshness of the time-generated id of a branch operation, as guaranteed
by the monotone collision-resistant id source of the data model: the new id
is not the source node and no existing edge starts at it. -/
def FreshFor (st : FlowState) : Op → Prop
  | .branch _ s nid _ => nid ≠ s ∧ ∀ e ∈ st.edges, e.source ≠ nid
  | .connect _ _ => True

def OpsWF : FlowState → List Op → Prop
  | _, [] => True
  | st, op :: ops => FreshFor st op ∧ OpsWF (applyOp st op) ops

theorem applyOps_acyclic : ∀ (ops : List Op) (st : FlowState),
    Acyclic st.edges → OpsWF st ops → Acyclic (applyOps st ops).edges := by
  intro ops
  induction ops with
  | nil => intro st h _; exact h
  | cons op rest ih =>
      intro st h hwf
      simp only [OpsWF] at hwf
      obtain ⟨hf, hwf2⟩ := hwf
      refine ih (applyOp st op) ?_ hwf2
      cases op with
      | branch q s nid r =>
          simp only [FreshFor] at hf
          exact onBranch_acyclic st q s nid r h hf.1 hf.2
      | connect s t => exact onConnect_acyclic st s t h

/-- C1: every sequence of branch and connect operations starting from a
cycle-free edge set keeps the edge set cycle-free; and connect is rejected
with no state change when an id is missing (silently) or when the target
already reaches the source (with the user-facing cycle warning), and
otherwise adds the edge from source to target. -/
theorem dag_invariant_connect_spec :
    (∀ (ops : List Op) (st : FlowState), Acyclic st.edges → OpsWF st ops →
      Acyclic (applyOps st ops).edges) ∧
    (∀ (st : FlowState) (t : Option String),
      onConnect st none t = (st, .missingId)) ∧
    (∀ (st : FlowState) (s : Option String),
      onConnect st s none = (st, .missingId)) ∧
    (∀ (st : FlowState) (s t : String), s ≠ "" → t ≠ "" →
      (Reaches st.edges t s →
        onConnect st (some s) (some t) = (st, .cycleWarning)) ∧
      (¬ Reaches st.edges t s →
        onConnect st (some s) (some t) =
          ({ st with edges := addEdge ⟨connEdgeId s t, s, t, none, false⟩ st.edges },
            .connected) ∧
        stepE ((onConnect st (some s) (some t)).1).edges s t)) := by
  refine ⟨applyOps_acyclic, ?_, ?_, ?_⟩
  · intro st t; rfl
  · intro st s; cases s <;> rfl
  · intro st s t hs ht
    constructor
    · intro hre
      simp only [onConnect]
      rw [if_neg (by tauto), if_pos ((canReach_iff st.edges t s).mpr hre)]
    · intro hnre
      have hcr : canReach st.edges t s = false := by
        rcases hb : canReach st.edges t s with _ | _
        · rfl
        · exact absurd ((canReach_iff st.edges t s).mp hb) hnre
      constructor
      · simp only [onConnect]
        rw [if_neg (by tauto), if_neg (by simp [hcr])]
      · simp only [onConnect]
        rw [if_neg (by tauto), if_neg (by simp [hcr])]
        exact stepE_addEdge ⟨connEdgeId s t, s, t, none, false⟩ st.edges

/-- C1 witness: the invariant applied to a concrete branch followed by a
rejected connect, and the cycle rejection for a concrete reachable pair. -/
theorem dag_invariant_connect_spec_witness :
    Acyclic (applyOps
      ⟨[{ id := "a", position := ⟨0, 0⟩, data := .chat { id := "a" } }], []⟩
      [.branch "q" "a" "b" 0, .connect (some "b") (some "a")]).edges ∧
    onConnect (⟨[], [{ id := "e1", source := "a", target := "b" }]⟩ : FlowState)
      (some "b") (some "a") =
      (⟨[], [{ id := "e1", source := "a", target := "b" }]⟩, .cycleWarning) := by
  constructor
  · apply dag_invariant_connect_spec.1
    · intro v h
      rcases (Relation.TransGen.head'_iff).mp h with ⟨w, ⟨e, he, _⟩, _⟩
      simp at he
    · exact ⟨⟨by decide, by simp⟩, trivial, trivial⟩
  · apply (dag_invariant_connect_spec.2.2.2
      (⟨[], [{ id := "e1", source := "a", target := "b" }]⟩ : FlowState)
      "b" "a" (by decide) (by decide)).1
    exact Relation.ReflTransGen.single
      ⟨{ id := "e1", source := "a", target := "b" }, by simp, rfl, rfl⟩

/-! ## Branch postconditions (C3) -/

theorem find?_cons_if {α : Type} (p : α → Bool) (a : α) (l : List α) :
    (a :: l).find? p = if p a then some a else l.find? p := by
  cases hpa : p a <;> simp [List.find?, hpa]

theorem find?_append_split {α : Type} (p : α → Bool) :
    ∀ (l1 l2 : List α), (l1 ++ l2).find? p =
      match l1.find? p with
      | some x => some x
      | none => l2.find? p := by
  intro l1 l2
  induction l1 with
  | nil => simp
  | cons a rest ih =>
      rw [List.cons_append, find?_cons_if, find?_cons_if]
      cases hpa : p a
      · simpa using ih
      · simp

theorem find?_map_id {f : NodeRec → NodeRec} (hfid : ∀ n, (f n).id = n.id)
    (S : String) : ∀ (l : List NodeRec),
      (l.map f).find? (fun n => n.id == S) =
        (l.find? (fun n => n.id == S)).map f := by
  intro l
  induction l with
  | nil => rfl
  | cons n rest ih =>
      rw [List.map_cons, find?_cons_if, find?_cons_if, hfid n]
      cases hb : (n.id == S)
      · simpa using ih
      · simp

theorem highlightUpdate_id (q S : String) (n : NodeRec) :
    (highlightUpdate q S n).id = n.id := by
  unfold highlightUpdate
  by_cases h : n.id = S
  · rw [if_pos h]
    rcases n with ⟨nid, npos, ndata, nsel, nhid⟩
    cases ndata with
    | chat cd =>
        dsimp only
        split <;> rfl
    | research rd => rfl
    | note nd => rfl
  · rw [if_neg h]

theorem highlightUpdate_kind (q S : String) (n : NodeRec) :
    (highlightUpdate q S n).kind = n.kind := by
  unfold highlightUpdate
  by_cases h : n.id = S
  · rw [if_pos h]
    rcases n with ⟨nid, npos, ndata, nsel, nhid⟩
    cases ndata with
    | chat cd =>
        dsimp only
        split
        · rfl
        · rfl
    | research rd => rfl
    | note nd => rfl
  · rw [if_neg h]

theorem addEdge_of_fresh (e : EdgeRec) (eds : List EdgeRec)
    (h : ∀ x ∈ eds, ¬ (x.source = e.source ∧ x.target = e.target)) :
    addEdge e eds = eds ++ [e] := by
  unfold addEdge
  rw [if_neg]
  intro hany
  rcases List.any_eq_true.mp hany with ⟨x, hx, hb⟩
  have hb2 := (Bool.and_eq_true _ _).mp hb
  exact h x hx ⟨by simpa using hb2.1, by simpa using hb2.2⟩

/-- The highlight list of a node, as read from the live state: the chat
payload's highlights (empty when absent), empty for other variants or a
missing node. -/
def highlightsOf (st : FlowState) (nodeId : String) : List String :=
  match st.nodes.find? (fun n => n.id == nodeId) with
  | some n =>
    match n.data with
    | .chat cd => cd.highlights.getD []
    | .research _ => []
    | .note _ => []
  | none => []

theorem onBranch_unfold (st : FlowState) (t S nid : String) (r : Rat)
    (srcNode : NodeRec)
    (hfind : st.nodes.find? (fun n => n.id == S) = some srcNode) :
    onBranch st t S nid r =
      ⟨(if srcNode.kind = .chatNode then st.nodes.map (highlightUpdate t S)
        else st.nodes) ++ [branchNewNode srcNode t nid r],
       addEdge (branchNewEdge S nid) st.edges⟩ := by
  unfold onBranch
  rw [hfind]

theorem map_id_highlightUpdate (t S : String) (l : List NodeRec) :
    (l.map (highlightUpdate t S)).map (fun n => n.id) = l.map (fun n => n.id) := by
  rw [List.map_map]
  congr 1
  funext n
  exact highlightUpdate_id t S n

theorem find?_onBranch_nodes (st : FlowState) (t S nid : String) (r : Rat)
    (srcNode : NodeRec)
    (hfind : st.nodes.find? (fun n => n.id == S) = some srcNode) :
    (onBranch st t S nid r).nodes.find? (fun n => n.id == S) =
      some (if srcNode.kind = .chatNode then highlightUpdate t S srcNode
        else srcNode) := by
  rw [onBranch_unfold st t S nid r srcNode hfind]
  dsimp only
  rw [find?_append_split]
  by_cases hk : srcNode.kind = .chatNode
  · rw [if_pos hk, if_pos hk, find?_map_id (highlightUpdate_id t S) S, hfind]
    rfl
  · rw [if_neg hk, if_neg hk, hfind]

theorem highlightsOf_read (st : FlowState) (S : String) (n : NodeRec)
    (hfind : st.nodes.find? (fun n2 => n2.id == S) = some n) :
    highlightsOf st S =
      match n.data with
      | .chat cd => cd.highlights.getD []
      | .research _ => []
      | .note _ => [] := by
  unfold highlightsOf
  rw [hfind]

/-- C3: a branch with an existing source and a fresh id adds exactly one new
chat node and one new edge from the source to it, growing the source's
highlight list by at most one entry; branching twice with identical text
adds the text to a chat source's highlight list exactly once while still
creating exactly two new nodes and two new edges, and leaves the (empty)
highlight list of a non-chat source unchanged. -/
theorem onBranch_twice_spec (st : FlowState) (t S id1 id2 : String) (r1 r2 : Rat)
    (srcNode : NodeRec)
    (hfind : st.nodes.find? (fun n => n.id == S) = some srcNode)
    (hf1 : ∀ e ∈ st.edges, ¬ (e.source = S ∧ e.target = id1))
    (hf2 : ∀ e ∈ st.edges, ¬ (e.source = S ∧ e.target = id2))
    (hne : id2 ≠ id1) :
    ((onBranch st t S id1 r1).nodes.map (fun n => n.id) =
        st.nodes.map (fun n => n.id) ++ [id1]) ∧
    ((onBranch st t S id1 r1).edges = st.edges ++ [branchNewEdge S id1]) ∧
    (highlightsOf (onBranch st t S id1 r1) S = highlightsOf st S ∨
      highlightsOf (onBranch st t S id1 r1) S = highlightsOf st S ++ [t]) ∧
    ((onBranch (onBranch st t S id1 r1) t S id2 r2).nodes.map (fun n => n.id) =
        st.nodes.map (fun n => n.id) ++ [id1, id2]) ∧
    ((onBranch (onBranch st t S id1 r1) t S id2 r2).edges =
        st.edges ++ [branchNewEdge S id1, branchNewEdge S id2]) ∧
    (srcNode.kind = .chatNode →
      highlightsOf (onBranch (onBranch st t S id1 r1) t S id2 r2) S =
        if t ∈ highlightsOf st S then highlightsOf st S
        else highlightsOf st S ++ [t]) ∧
    (srcNode.kind ≠ .chatNode →
      highlightsOf (onBranch (onBranch st t S id1 r1) t S id2 r2) S =
        highlightsOf st S) := by
  have hadd1 : addEdge (branchNewEdge S id1) st.edges =
      st.edges ++ [branchNewEdge S id1] := by
    apply addEdge_of_fresh
    intro x hx
    exact hf1 x hx
  have hob1 := onBranch_unfold st t S id1 r1 srcNode hfind
  have hfind1 := find?_onBranch_nodes st t S id1 r1 srcNode hfind
  set srcNode1 : NodeRec :=
    (if srcNode.kind = .chatNode then highlightUpdate t S srcNode else srcNode)
    with hsrc1def
  have hkind1 : srcNode1.kind = srcNode.kind := by
    rw [hsrc1def]
    by_cases hk : srcNode.kind = .chatNode
    · rw [if_pos hk]
      exact highlightUpdate_kind t S srcNode
    · rw [if_neg hk]
  have hob2 := onBranch_unfold (onBranch st t S id1 r1) t S id2 r2 srcNode1 hfind1
  have hadd2 : addEdge (branchNewEdge S id2) (onBranch st t S id1 r1).edges =
      st.edges ++ [branchNewEdge S id1, branchNewEdge S id2] := by
    rw [hob1]
    dsimp only
    rw [hadd1, addEdge_of_fresh]
    · simp
    · intro x hx
      rcases List.mem_append.mp hx with hx1 | hx2
      · exact hf2 x hx1
      · have hx3 : x = branchNewEdge S id1 := by simpa using hx2
        subst hx3
        intro hcon
        exact hne (Eq.symm (by simpa [branchNewEdge] using hcon.2))
  have hids1 : (onBranch st t S id1 r1).nodes.map (fun n => n.id) =
      st.nodes.map (fun n => n.id) ++ [id1] := by
    rw [hob1]
    dsimp only
    rw [List.map_append]
    by_cases hk : srcNode.kind = .chatNode
    · rw [if_pos hk, map_id_highlightUpdate]
      rfl
    · rw [if_neg hk]
      rfl
  have hfind2 := find?_onBranch_nodes (onBranch st t S id1 r1) t S id2 r2 srcNode1 hfind1
  refine ⟨hids1, by rw [hob1]; exact hadd1, ?_, ?_, ?_, ?_, ?_⟩
  · -- highlight growth of the single call
    rw [highlightsOf_read _ S srcNode1 hfind1, highlightsOf_read st S srcNode hfind,
      hsrc1def]
    by_cases hk : srcNode.kind = .chatNode
    · rw [if_pos hk]
      rcases srcNode with ⟨sid, spos, sdata, ssel, shid⟩
      cases sdata with
      | chat cd =>
          have hsid : sid = S := by
            have := List.find?_some hfind
            simpa using this
          subst hsid
          by_cases hmem : t ∈ cd.highlights.getD []
          · exact Or.inl (by simp [highlightUpdate, hmem])
          · exact Or.inr (by simp [highlightUpdate, hmem])
      | research rd => exact absurd hk (by simp [NodeRec.kind, NodeData.kind])
      | note nd => exact absurd hk (by simp [NodeRec.kind, NodeData.kind])
    · rw [if_neg hk]
      exact Or.inl rfl
  · -- two nodes added over two calls
    rw [hob2]
    dsimp only
    rw [List.map_append]
    by_cases hk : srcNode1.kind = .chatNode
    · rw [if_pos hk, map_id_highlightUpdate, hids1]
      simp [branchNewNode]
    · rw [if_neg hk, hids1]
      simp [branchNewNode]
  · -- two edges added over two calls
    rw [hob2]
    dsimp only
    exact hadd2
  · -- highlight recorded exactly once on a chat source
    intro hk
    have hk1 : srcNode1.kind = .chatNode := by rw [hkind1]; exact hk
    rw [highlightsOf_read _ S _ hfind2, highlightsOf_read st S srcNode hfind]
    rw [if_pos hk1, hsrc1def, if_pos hk]
    rcases srcNode with ⟨sid, spos, sdata, ssel, shid⟩
    cases sdata with
    | chat cd =>
        have hsid : sid = S := by
          have := List.find?_some hfind
          simpa using this
        subst hsid
        by_cases hmem : t ∈ cd.highlights.getD []
        · simp [highlightUpdate, hmem]
        · simp [highlightUpdate, hmem]
    | research rd => exact absurd hk (by simp [NodeRec.kind, NodeData.kind])
    | note nd => exact absurd hk (by simp [NodeRec.kind, NodeData.kind])
  · -- non-chat source keeps its empty highlight list
    intro hk
    have hk1 : ¬ srcNode1.kind = .chatNode := by rw [hkind1]; exact hk
    rw [highlightsOf_read _ S _ hfind2, highlightsOf_read st S srcNode hfind]
    rw [if_neg hk1, hsrc1def, if_neg hk]

/-- C3 witness: branching twice with the same text from a single chat node
adds the two nodes and records the highlight once. -/
theorem onBranch_twice_spec_witness :
    ((onBranch (FlowState.mk
        [{ id := "a", position := ⟨0, 0⟩, data := .chat { id := "a" } }] [])
        "t" "a" "b" 0).nodes.map (fun n => n.id) = ["a", "b"]) ∧
    highlightsOf (onBranch (onBranch (FlowState.mk
        [{ id := "a", position := ⟨0, 0⟩, data := .chat { id := "a" } }] [])
        "t" "a" "b" 0) "t" "a" "c" 0) "a" = ["t"] := by
  have h := onBranch_twice_spec (FlowState.mk
      [{ id := "a", position := ⟨0, 0⟩, data := .chat { id := "a" } }] [])
      "t" "a" "b" "c" 0 0
      { id := "a", position := ⟨0, 0⟩, data := .chat { id := "a" } }
      rfl (by simp) (by simp) (by decide)
  refine ⟨?_, ?_⟩
  · rw [h.1]
    rfl
  · rw [h.2.2.2.2.2.1 rfl]
    decide

/-! ## Canvas and workspace management -/

/-- A named independent graph with its viewport and timestamps. -/
structure Canvas where
  id : String
  title : String
  nodes : List NodeRec
  edges : List EdgeRec
  viewport : Viewport
  createdAt : Nat
  updatedAt : Nat
deriving DecidableEq

/-- The component state relevant to canvas management: the canvas collection,
the active canvas id, and the live React Flow graph plus viewport. -/
structure AppState where
  canvases : List Canvas
  activeCanvasId : String
  liveNodes : List NodeRec
  liveEdges : List EdgeRec
  liveViewport : Viewport
deriving DecidableEq

/-- Translation of saveCurrentCanvas: flush the live graph and viewport into
the active canvas record (no-op when the active id is falsy). -/
def saveCurrentCanvas (st : AppState) (now : Nat) : AppState :=
  if st.activeCanvasId = "" then st
  else
    let flush : Canvas → Canvas := fun c =>
      if c.id = st.activeCanvasId then
        { c with
            nodes := st.liveNodes
            edges := st.liveEdges
            viewport := st.liveViewport
            updatedAt := now }
      else c
    { st with canvases := st.canvases.map flush }

/-- Translation of handleNewCanvas: flush the current canvas, append an
empty canvas with the generated id and default timestamp title, activate it
and clear the live graph. -/
def handleNewCanvas (st : AppState) (newId title : String) (now : Nat) : AppState :=
  let st1 := if st.activeCanvasId ≠ "" then saveCurrentCanvas st now else st
  let newCanvas : Canvas := ⟨newId, title, [], [], ⟨0, 0, 1⟩, now, now⟩
  { canvases := st1.canvases ++ [newCanvas], activeCanvasId := newId,
    liveNodes := [], liveEdges := [], liveViewport := ⟨0, 0, 1⟩ }

/-- Translation of handleSelectCanvas: no-op on the active canvas, otherwise
flush the current canvas, and when the target exists load its graph and
viewport and activate it (callback re-binding carries no data and is not
modelled). -/
def handleSelectCanvas (st : AppState) (canvasId : String) (now : Nat) : AppState :=
  if canvasId = st.activeCanvasId then st
  else
    let st1 := if st.activeCanvasId ≠ "" then saveCurrentCanvas st now else st
    match st.canvases.find? (fun c => c.id == canvasId) with
    | none => st1
    | some c =>
      { canvases := st1.canvases, activeCanvasId := canvasId,
        liveNodes := c.nodes, liveEdges := c.edges, liveViewport := c.viewport }

/-- Translation of handleDeleteCanvas: reject when at most one canvas
remains; otherwise remove the canvas with the given id, and when it was the
active one, activate the first remaining canvas and load it.  The empty
match arm is unreachable when canvas ids are distinct (the JS would throw
there on reading newCanvases[0].id). -/
def handleDeleteCanvas (st : AppState) (canvasId : String) : AppState :=
  if st.canvases.length ≤ 1 then st
  else
    let newCanvases := st.canvases.filter (fun c => !(c.id == canvasId))
    if canvasId = st.activeCanvasId then
      match newCanvases with
      | [] => st
      | first :: rest =>
        { canvases := first :: rest, activeCanvasId := first.id,
          liveNodes := first.nodes, liveEdges := first.edges,
          liveViewport := first.viewport }
    else { st with canvases := newCanvases }

/-- Translation of handleRenameCanvas: pure metadata update of title and
modified timestamp. -/
def handleRenameCanvas (st : AppState) (canvasId newTitle : String) (now : Nat) : AppState :=
  { st with canvases := st.canvases.map (fun c =>
      if c.id = canvasId then { c with title := newTitle, updatedAt := now } else c) }

theorem length_filter_partition {α : Type} (p : α → Bool) :
    ∀ l : List α, (l.filter p).length + (l.filter (fun a => !(p a))).length = l.length := by
  intro l
  induction l with
  | nil => rfl
  | cons a rest ih =>
      cases hp : p a <;> simp [List.filter_cons, hp] <;> omega

theorem length_filter_id_le_one (id : String) :
    ∀ l : List Canvas, (l.map (fun c => c.id)).Nodup →
      (l.filter (fun c => c.id == id)).length ≤ 1 := by
  intro l
  induction l with
  | nil => intro _; simp
  | cons c rest ih =>
      intro hnd
      rw [List.map_cons, List.nodup_cons] at hnd
      rw [List.filter_cons]
      cases hc : (c.id == id)
      · simpa using ih hnd.2
      · have hcid : c.id = id := by simpa using hc
        have hrest : rest.filter (fun c2 => c2.id == id) = [] := by
          rw [List.filter_eq_nil_iff]
          intro c2 hc2
          intro hb
          have : c2.id = id := by simpa using hb
          exact hnd.1 (List.mem_map.mpr ⟨c2, hc2, by rw [this, hcid]⟩)
        simp [hrest]

/-- C5: deleting a canvas is rejected with no state change when only one
canvas exists; with more than one canvas it removes exactly the canvases
with that id, leaves the active canvas and live graph untouched when an
inactive canvas is deleted, and activates and loads the first remaining
canvas when the active one is deleted; and every canvas operation keeps the
collection non-empty (given distinct canvas ids and at least one canvas). -/
theorem deleteCanvas_spec (st : AppState) (canvasId newId title : String) (now : Nat) :
    (st.canvases.length = 1 → handleDeleteCanvas st canvasId = st) ∧
    ((st.canvases.map (fun c => c.id)).Nodup → 2 ≤ st.canvases.length →
      (handleDeleteCanvas st canvasId).canvases =
        st.canvases.filter (fun c => !(c.id == canvasId))) ∧
    (2 ≤ st.canvases.length → canvasId ≠ st.activeCanvasId →
      handleDeleteCanvas st canvasId =
        { st with canvases := st.canvases.filter (fun c => !(c.id == canvasId)) }) ∧
    (2 ≤ st.canvases.length → canvasId = st.activeCanvasId →
      ∀ first rest, st.canvases.filter (fun c => !(c.id == canvasId)) = first :: rest →
        handleDeleteCanvas st canvasId =
          ⟨first :: rest, first.id, first.nodes, first.edges, first.viewport⟩) ∧
    ((st.canvases.map (fun c => c.id)).Nodup → 1 ≤ st.canvases.length →
      1 ≤ (handleDeleteCanvas st canvasId).canvases.length ∧
      1 ≤ (handleNewCanvas st newId title now).canvases.length ∧
      1 ≤ (handleSelectCanvas st canvasId now).canvases.length ∧
      1 ≤ (handleRenameCanvas st canvasId title now).canvases.length) := by
  refine ⟨?_, ?_, ?_, ?_, ?_⟩
  · intro hlen
    unfold handleDeleteCanvas
    rw [if_pos (by omega)]
  · intro hnd hlen
    unfold handleDeleteCanvas
    rw [if_neg (by omega)]
    have hpart := length_filter_partition (fun c : Canvas => c.id == canvasId) st.canvases
    have hone := length_filter_id_le_one canvasId st.canvases hnd
    by_cases hact : canvasId = st.activeCanvasId
    · rw [if_pos hact]
      rcases hfil : st.canvases.filter (fun c => !(c.id == canvasId)) with _ | ⟨first, rest⟩
      · rw [hfil] at hpart
        simp only [List.length_nil, Nat.add_zero] at hpart
        omega
      · rw [hfil]
    · rw [if_neg hact]
  · intro hlen hact
    unfold handleDeleteCanvas
    rw [if_neg (by omega), if_neg hact]
  · intro hlen hact first rest hfil
    unfold handleDeleteCanvas
    rw [if_neg (by omega), if_pos hact, hfil]
  · intro hnd hlen
    refine ⟨?_, by simp [handleNewCanvas], ?_, by simpa [handleRenameCanvas] using hlen⟩
    · unfold handleDeleteCanvas
      by_cases h1 : st.canvases.length ≤ 1
      · rw [if_pos h1]
        exact hlen
      · rw [if_neg h1]
        have hpart := length_filter_partition (fun c : Canvas => c.id == canvasId) st.canvases
        have hone := length_filter_id_le_one canvasId st.canvases hnd
        have hflen : 1 ≤ (st.canvases.filter (fun c => !(c.id == canvasId))).length := by
          omega
        by_cases hact : canvasId = st.activeCanvasId
        · rw [if_pos hact]
          rcases hfil : st.canvases.filter (fun c => !(c.id == canvasId)) with _ | ⟨first, rest⟩
          · rw [hfil] at hflen
            simp at hflen
          · rw [hfil]
            simp
        · rw [if_neg hact]
          exact hflen
    · unfold handleSelectCanvas
      by_cases h1 : canvasId = st.activeCanvasId
      · rw [if_pos h1]
        exact hlen
      · rw [if_neg h1]
        rcases hfind : st.canvases.find? (fun c => c.id == canvasId) with _ | c
        · by_cases h2 : st.activeCanvasId ≠ ""
          · simpa [hfind, saveCurrentCanvas, h2] using hlen
          · simpa [hfind, h2] using hlen
        · by_cases h2 : st.activeCanvasId ≠ ""
          · simpa [hfind, saveCurrentCanvas, h2] using hlen
          · simpa [hfind, h2] using hlen

/-- C5 witness: deleting the active canvas out of two concrete canvases
keeps the other one, which becomes active and loaded. -/
theorem deleteCanvas_spec_witness :
    handleDeleteCanvas
      (AppState.mk
        [⟨"c1", "one", [], [], ⟨0, 0, 1⟩, 0, 0⟩,
         ⟨"c2", "two", [], [{ id := "e", source := "x", target := "y" }], ⟨1, 2, 3⟩, 0, 0⟩]
        "c1" [] [] ⟨0, 0, 1⟩) "c1" =
      ⟨[⟨"c2", "two", [], [{ id := "e", source := "x", target := "y" }], ⟨1, 2, 3⟩, 0, 0⟩],
        "c2", [], [{ id := "e", source := "x", target := "y" }], ⟨1, 2, 3⟩⟩ := by
  have h := (deleteCanvas_spec
    (AppState.mk
      [⟨"c1", "one", [], [], ⟨0, 0, 1⟩, 0, 0⟩,
       ⟨"c2", "two", [], [{ id := "e", source := "x", target := "y" }], ⟨1, 2, 3⟩, 0, 0⟩]
      "c1" [] [] ⟨0, 0, 1⟩) "c1" "x" "y" 0).2.2.2.1 (by decide) rfl
    ⟨"c2", "two", [], [{ id := "e", source := "x", target := "y" }], ⟨1, 2, 3⟩, 0, 0⟩ []
    (by decide)
  rw [h]

/-! ## Load-time persistence and legacy migration -/

/-- The persisted multi-canvas record stored under the current versioned
key. -/
structure CanvasListState where
  canvases : List Canvas
  activeCanvasId : String
deriving DecidableEq

/-- The legacy single-canvas record (React Flow toObject shape): nodes are
required by the migration guard, edges and viewport may be absent. -/
structure LegacyFlow where
  nodes : List NodeRec
  edges : Option (List EdgeRec) := none
  viewport : Option Viewport := none
deriving DecidableEq

/-- A localStorage slot as seen by the load effect: the key is absent, the
stored string fails to parse into a usable value of the expected shape, or
it parses. -/
inductive Slot (α : Type)
  | absent
  | invalid
  | valid (v : α)
deriving DecidableEq

/-- The outcome of the load effect: the component state it produces and the
two storage slots after it ran. -/
structure LoadResult where
  state : AppState
  currentSlot : Slot CanvasListState
  legacySlot : Slot LegacyFlow
deriving DecidableEq

/-- Translation of the load-on-mount effect: try the current versioned key
first (usable only when it holds at least one canvas, in which case the
active canvas, when found, is loaded into the live graph); else try the
legacy single-canvas key, wrapping its contents as the sole canvas of a new
workspace titled Migrated Canvas, loading it, and removing the legacy key;
else synthesize a fresh workspace with one empty canvas.  The generated
timestamp ids, the time and the default title are passed as arguments. -/
def loadWorkspace (cur : Slot CanvasListState) (leg : Slot LegacyFlow)
    (migratedId freshId : String) (now : Nat) (freshTitle : String) : LoadResult :=
  let fallback : LoadResult :=
    match leg with
    | .valid flow =>
      let migratedCanvas : Canvas :=
        ⟨migratedId, "Migrated Canvas", flow.nodes, flow.edges.getD [],
          flow.viewport.getD ⟨0, 0, 1⟩, now, now⟩
      { state := ⟨[migratedCanvas], migratedId, flow.nodes, flow.edges.getD [],
          flow.viewport.getD ⟨0, 0, 1⟩⟩,
        currentSlot := cur, legacySlot := .absent }
    | _ =>
      let initialCanvas : Canvas := ⟨freshId, freshTitle, [], [], ⟨0, 0, 1⟩, now, now⟩
      { state := ⟨[initialCanvas], freshId, [], [], ⟨0, 0, 1⟩⟩,
        currentSlot := cur, legacySlot := leg }
  match cur with
  | .valid cls =>
    if 0 < cls.canvases.length then
      match cls.canvases.find? (fun c => c.id == cls.activeCanvasId) with
      | some c =>
        { state := ⟨cls.canvases, cls.activeCanvasId, c.nodes, c.edges, c.viewport⟩,
          currentSlot := cur, legacySlot := leg }
      | none =>
        { state := ⟨cls.canvases, cls.activeCanvasId, [], [], ⟨0, 0, 1⟩⟩,
          currentSlot := cur, legacySlot := leg }
    else fallback
  | _ => fallback

/-- C4: when the current versioned key holds no usable workspace (absent,
unparseable, or an empty canvas list) and a legacy single-canvas record
exists, loading produces a workspace whose sole canvas carries exactly the
legacy record's nodes, edges and viewport, marks it active, loads it into
the live graph, and removes the legacy key. -/
theorem legacy_migration_spec (cur : Slot CanvasListState) (leg : Slot LegacyFlow)
    (flow : LegacyFlow) (migratedId freshId : String) (now : Nat) (freshTitle : String)
    (hcur : cur = .absent ∨ cur = .invalid ∨
      ∃ cls, cur = .valid cls ∧ cls.canvases = [])
    (hleg : leg = .valid flow) :
    (loadWorkspace cur leg migratedId freshId now freshTitle).state.canvases =
      [⟨migratedId, "Migrated Canvas", flow.nodes, flow.edges.getD [],
        flow.viewport.getD ⟨0, 0, 1⟩, now, now⟩] ∧
    (loadWorkspace cur leg migratedId freshId now freshTitle).state.activeCanvasId =
      migratedId ∧
    (loadWorkspace cur leg migratedId freshId now freshTitle).state.liveNodes =
      flow.nodes ∧
    (loadWorkspace cur leg migratedId freshId now freshTitle).state.liveEdges =
      flow.edges.getD [] ∧
    (loadWorkspace cur leg migratedId freshId now freshTitle).state.liveViewport =
      flow.viewport.getD ⟨0, 0, 1⟩ ∧
    (loadWorkspace cur leg migratedId freshId now freshTitle).legacySlot = .absent ∧
    (loadWorkspace cur leg migratedId freshId now freshTitle).currentSlot = cur := by
  subst hleg
  have hfall : loadWorkspace cur (.valid flow) migratedId freshId now freshTitle =
      { state := ⟨[⟨migratedId, "Migrated Canvas", flow.nodes, flow.edges.getD [],
          flow.viewport.getD ⟨0, 0, 1⟩, now, now⟩], migratedId, flow.nodes,
          flow.edges.getD [], flow.viewport.getD ⟨0, 0, 1⟩⟩,
        currentSlot := cur, legacySlot := .absent } := by
    rcases hcur with rfl | rfl | ⟨cls, rfl, hempty⟩
    · rfl
    · rfl
    · simp only [loadWorkspace, hempty]
      rfl
  rw [hfall]
  exact ⟨rfl, rfl, rfl, rfl, rfl, rfl, rfl⟩

/-- C4 witness: migration of a concrete legacy record with one node, one
edge and a viewport, from an unparseable current slot. -/
theorem legacy_migration_spec_witness :
    (loadWorkspace .invalid
      (.valid ⟨[{ id := "a", position := ⟨0, 0⟩, data := .note { id := "a" } }],
        some [{ id := "e", source := "a", target := "a" }], some ⟨1, 2, 3⟩⟩)
      "canvas-1" "canvas-2" 7 "New Canvas").state.canvases =
      [⟨"canvas-1", "Migrated Canvas",
        [{ id := "a", position := ⟨0, 0⟩, data := .note { id := "a" } }],
        [{ id := "e", source := "a", target := "a" }], ⟨1, 2, 3⟩, 7, 7⟩] ∧
    (loadWorkspace .invalid
      (.valid ⟨[{ id := "a", position := ⟨0, 0⟩, data := .note { id := "a" } }],
        some [{ id := "e", source := "a", target := "a" }], some ⟨1, 2, 3⟩⟩)
      "canvas-1" "canvas-2" 7 "New Canvas").legacySlot = .absent := by
  have h := legacy_migration_spec .invalid
    (.valid ⟨[{ id := "a", position := ⟨0, 0⟩, data := .note { id := "a" } }],
      some [{ id := "e", source := "a", target := "a" }], some ⟨1, 2, 3⟩⟩)
    ⟨[{ id := "a", position := ⟨0, 0⟩, data := .note { id := "a" } }],
      some [{ id := "e", source := "a", target := "a" }], some ⟨1, 2, 3⟩⟩
    "canvas-1" "canvas-2" 7 "New Canvas" (Or.inr (Or.inl rfl)) rfl
  exact ⟨h.1, h.2.2.2.2.2.1⟩

/-! ## Ancestor-chain walk of the chat generation handler -/

/-- Translation of the context-building while(true) loop of handleGenerate:
find the first edge into the current node, move to its source node, and
prepend that node's payload.  One fuel unit is one loop iteration; the JS
loop has no bound at all, so exhausted fuel (none) models a walk that is
still running after that many iterations. -/
def ancestorChainFuel (nodes : List NodeRec) (edges : List EdgeRec) :
    Nat → String → List NodeData → Option (List NodeData)
  | 0 => fun _ _ => none
  | fuel + 1 => fun currentId acc =>
    match edges.find? (fun e => e.target == currentId) with
    | none => some acc
    | some parentEdge =>
      match nodes.find? (fun n => n.id == parentEdge.source) with
      | none => some acc
      | some parentNode =>
        ancestorChainFuel nodes edges fuel parentNode.id (parentNode.data :: acc)

/-- The walk terminates on the given graph when some finite iteration count
completes it. -/
def AncestorWalkTerminates (nodes : List NodeRec) (edges : List EdgeRec)
    (startId : String) : Prop :=
  ∃ fuel, (ancestorChainFuel nodes edges fuel startId []).isSome

/-- A two-node graph whose edges form a directed cycle, as could be produced
by manual data corruption. -/
def cycNodes : List NodeRec :=
  [{ id := "a", position := ⟨0, 0⟩, data := .chat { id := "a" } },
   { id := "b", position := ⟨0, 0⟩, data := .chat { id := "b" } }]

def cycEdges : List EdgeRec :=
  [{ id := "e1", source := "a", target := "b" },
   { id := "e2", source := "b", target := "a" }]

theorem cyc_walk_none : ∀ (fuel : Nat) (acc : List NodeData) (s : String),
    s = "a" ∨ s = "b" → ancestorChainFuel cycNodes cycEdges fuel s acc = none := by
  intro fuel
  induction fuel with
  | zero => intro acc s _; rfl
  | succ fuel ih =>
      rintro acc s (rfl | rfl)
      · exact ih _ "b" (Or.inr rfl)
      · exact ih _ "a" (Or.inl rfl)

/-- C6 divergence theorem: on the concrete cyclic edge list the
ancestor-chain walk never finishes, for any number of iterations — the code
has no iteration bound or visited guard, so it infinite-loops exactly where
the claim requires bounded termination. -/
theorem ancestor_walk_diverges_on_cycle :
    ¬ AncestorWalkTerminates cycNodes cycEdges "a" := by
  rintro ⟨fuel, hs⟩
  rw [cyc_walk_none fuel [] "a" (Or.inl rfl)] at hs
  simp at hs

end ChatTree
